import Mathlib

/-!
# SeiCore agent: normalisation, canonical serialisation and stamping

A shallow embedding of `src/agent/schema.js` (`normalizeMetadata`, `canonicalize`), of
`src/agent/openaiClient.js` (`summarizeText`) and of the metadata path of the routes
`/analyze` and `/verify/meta` of `src/agent/server.js`, together with the parts of the
ECMAScript built-ins these functions call (`String(v)`, `String.prototype.trim`,
`JSON.stringify` on primitives, `Array.prototype.join`, `Array.prototype.sort`,
`Number.prototype.toFixed`, object spread).

* JavaScript strings are sequences of UTF-16 code units, so they are lists of numbers
  below `2^16`; every comparison, escape and slice works on code units, as the language
  does.
* A function that can throw returns `Except JsError _`.
* What the code takes from its surroundings is an argument: the clock reading, the outcome
  of the request to the generation service, the module constants read from the process
  environment, and the host functions left uninterpreted (`Host`).
-/

namespace SeiCore

/-! ## Strings -/

/-- A UTF-16 code unit. -/
abbrev CodeUnit := Fin 65536

/-- A JavaScript string: a finite sequence of UTF-16 code units. -/
abbrev JsString := List CodeUnit

/-- UTF-16 encoding of one Unicode scalar value. -/
def utf16Char (c : Char) : JsString :=
  if c.toNat < 65536 then [Fin.ofNat c.toNat]
  else [Fin.ofNat (55296 + (c.toNat - 65536) / 1024), Fin.ofNat (56320 + (c.toNat - 65536) % 1024)]

/-- The JavaScript string denoted by a source literal. -/
def utf16 (s : String) : JsString := s.toList.flatMap utf16Char

/-- Leading surrogate, `0xD800..0xDBFF`. -/
def isLeadSurrogate (c : CodeUnit) : Bool := 55296 ≤ c.val && c.val ≤ 56319

/-- Trailing surrogate, `0xDC00..0xDFFF`. -/
def isTrailSurrogate (c : CodeUnit) : Bool := 56320 ≤ c.val && c.val ≤ 57343

/-- ECMAScript `WhiteSpace` or `LineTerminator` code points (all of them are in the BMP):
TAB, LF, VT, FF, CR, SP, NBSP, U+1680, U+2000..U+200A, LS, PS, U+202F, U+205F, U+3000, BOM. -/
def isWhiteSpace (c : CodeUnit) : Bool :=
  c.val == 9 || c.val == 10 || c.val == 11 || c.val == 12 || c.val == 13 || c.val == 32 ||
  c.val == 160 || c.val == 5760 || (8192 ≤ c.val && c.val ≤ 8202) || c.val == 8232 ||
  c.val == 8233 || c.val == 8239 || c.val == 8287 || c.val == 12288 || c.val == 65279

/-- The built-in `String.prototype.trimStart`. -/
def trimStart (s : JsString) : JsString := s.dropWhile isWhiteSpace

/-- The built-in `String.prototype.trimEnd`. -/
def trimEnd (s : JsString) : JsString := (s.reverse.dropWhile isWhiteSpace).reverse

/-- The built-in `String.prototype.trim`. -/
def trim (s : JsString) : JsString := trimEnd (trimStart s)

/-- The comparison `x < y` on strings is lexicographic on code units; this is `x <= y`,
the order the default comparator of `Array.prototype.sort` sorts by. -/
def strLe : JsString → JsString → Bool
  | [], _ => true
  | _ :: _, [] => false
  | a :: as, b :: bs => if a < b then true else if b < a then false else strLe as bs

/-- The built-in `Array.prototype.sort()` without comparator, applied to an array of strings. -/
def sortStrings (ks : List JsString) : List JsString :=
  ks.insertionSort (fun a b => strLe a b = true)

/-- The built-in `Array.prototype.join(",")` applied to an array of strings. -/
def joinComma : List JsString → JsString
  | [] => []
  | [s] => s
  | s :: t :: rest => s ++ (44 : CodeUnit) :: joinComma (t :: rest)

/-- Decimal digits of a natural number, most significant first, no leading zero
(`fuel` bounds the number of digits). -/
def decDigitsAux : Nat → Nat → JsString → JsString
  | 0, _, acc => acc
  | fuel + 1, n, acc =>
    if n / 10 = 0 then Fin.ofNat (48 + n % 10) :: acc
    else decDigitsAux fuel (n / 10) (Fin.ofNat (48 + n % 10) :: acc)

/-- The decimal representation of a natural number (`"0"` for zero). -/
def natToDec (n : Nat) : JsString := decDigitsAux (n + 1) n []

/-! ## Numbers and values -/

/-- A JavaScript Number: `NaN`, an infinity, or the finite value `± m · 2^e`
(`fin true 0 e` is negative zero). -/
inductive JsNum where
  | nan
  | inf (neg : Bool)
  | fin (neg : Bool) (m : Nat) (e : Int)
  deriving DecidableEq, Repr

/-- Whether the number is neither `NaN` nor an infinity. -/
def JsNum.isFinite : JsNum → Bool
  | .fin _ _ _ => true
  | _ => false

/-- The values the agent handles: what `JSON.parse` produces, plus `undefined`.
An object is its list of own properties in `Object.keys` order. -/
inductive JsVal where
  | undefined
  | null
  | bool (b : Bool)
  | num (n : JsNum)
  | str (s : JsString)
  | arr (xs : List JsVal)
  | obj (ps : List (JsString × JsVal))

/-- Exceptions raised by the modelled code: a `TypeError`, the `SyntaxError` of `JSON.parse`,
or any other one (a failed request). -/
inductive JsError where
  | typeError
  | parseError
  | other
  deriving DecidableEq, Repr

/-- Host functions the agent calls and that are left uninterpreted: the digit generation of
`Number::toString` for positive finite values, and the two digests (lowercase hex, computed
on the UTF-8 encoding of the string). -/
structure Host where
  positiveToString : Nat → Int → JsString
  sha256 : JsString → JsString
  keccak256 : JsString → JsString

/-- The abstract operation `Number::toString(x, 10)`. -/
def numberToString (H : Host) : JsNum → JsString
  | .nan => utf16 "NaN"
  | .inf false => utf16 "Infinity"
  | .inf true => utf16 "-Infinity"
  | .fin neg m e =>
    if m = 0 then utf16 "0"
    else if neg then utf16 "-" ++ H.positiveToString m e
    else H.positiveToString m e

/-- First value stored under key `k` in a property list. -/
def lookupProp {α : Type} (ps : List (JsString × α)) (k : JsString) : Option α :=
  match ps with
  | [] => none
  | (k', v) :: rest => if k' = k then some v else lookupProp rest k

/-- Whether the object has an own property `k`. -/
def hasOwn (ps : List (JsString × JsVal)) (k : JsString) : Bool :=
  (lookupProp ps k).isSome

/-- The read `input.k` for a key `k` that no built-in prototype defines (as is the case for
every key the agent reads): the own property of an object, `undefined` on any other
non-nullish value, and a `TypeError` on `null` and `undefined`. -/
def getProp (input : JsVal) (k : JsString) : Except JsError JsVal :=
  match input with
  | .undefined => .error .typeError
  | .null => .error .typeError
  | .obj ps => .ok ((lookupProp ps k).getD .undefined)
  | _ => .ok .undefined

mutual
/-- The conversion `String(v)` (abstract operation `ToString`). An array is joined with
commas by `Array.prototype.toString`; a plain object gives `"[object Object]"` through
`Object.prototype.toString`, unless an own property `toString` shadows that method: the
own property of parsed JSON is never callable and `Object.prototype.valueOf` returns the
object itself, so `OrdinaryToPrimitive` throws a `TypeError`. -/
def toStr (H : Host) : JsVal → Except JsError JsString
  | .undefined => .ok (utf16 "undefined")
  | .null => .ok (utf16 "null")
  | .bool true => .ok (utf16 "true")
  | .bool false => .ok (utf16 "false")
  | .num n => .ok (numberToString H n)
  | .str s => .ok s
  | .arr xs => (elemStrs H xs).map joinComma
  | .obj ps =>
    if hasOwn ps (utf16 "toString") then .error .typeError else .ok (utf16 "[object Object]")
/-- The element strings `Array.prototype.join` concatenates: the empty string for
`undefined` and `null`, `ToString` of the element otherwise. -/
def elemStrs (H : Host) : List JsVal → Except JsError (List JsString)
  | [] => .ok []
  | x :: xs => do
    let s ← (match x with
      | .undefined => Except.ok []
      | .null => Except.ok []
      | v => toStr H v)
    let r ← elemStrs H xs
    pure (s :: r)
end

/-! ## schema.js -/

/-- The helper `S` of schema.js:
`(v === undefined || v === null ? "" : String(v)).trim()`. -/
def S (H : Host) (v : JsVal) : Except JsError JsString :=
  Except.map trim (match v with
    | .undefined => Except.ok []
    | .null => Except.ok []
    | v => toStr H v)

/-- The call `xs.map(String)`. -/
def mapString (H : Host) : List JsVal → Except JsError (List JsVal)
  | [] => .ok []
  | x :: xs => do
    let s ← toStr H x
    let r ← mapString H xs
    pure (.str s :: r)

/-- The expression `Array.isArray(v) ? v.map(String) : []`. -/
def strSeq (H : Host) (v : JsVal) : Except JsError JsVal :=
  match v with
  | .arr xs => (mapString H xs).map .arr
  | _ => .ok (.arr [])

/-- The function `normalizeMetadata` of schema.js. The property values of the object literal
are evaluated in source order, so the first coercion that throws decides the exception. -/
def normalizeMetadata (H : Host) (input : JsVal) : Except JsError JsVal := do
  let title ← S H (← getProp input (utf16 "title"))
  let summary ← S H (← getProp input (utf16 "summary"))
  let doc_type ← S H (← getProp input (utf16 "doc_type"))
  let date_iso ← S H (← getProp input (utf16 "date_iso"))
  let parties ← strSeq H (← getProp input (utf16 "parties"))
  let tags ← strSeq H (← getProp input (utf16 "tags"))
  let model ← S H (← getProp input (utf16 "model"))
  let model_hash ← S H (← getProp input (utf16 "model_hash"))
  let prompt_hash ← S H (← getProp input (utf16 "prompt_hash"))
  let agent_version ← S H (← getProp input (utf16 "agent_version"))
  let extract_confidence ← S H (← getProp input (utf16 "extract_confidence"))
  let pdf_text_sha256 ← S H (← getProp input (utf16 "pdf_text_sha256"))
  let pages_processed ← S H (← getProp input (utf16 "pages_processed"))
  pure (.obj [
    (utf16 "title", .str title),
    (utf16 "summary", .str summary),
    (utf16 "doc_type", .str doc_type),
    (utf16 "date_iso", .str date_iso),
    (utf16 "parties", parties),
    (utf16 "tags", tags),
    (utf16 "model", .str model),
    (utf16 "model_hash", .str model_hash),
    (utf16 "prompt_hash", .str prompt_hash),
    (utf16 "agent_version", .str agent_version),
    (utf16 "extract_confidence", .str extract_confidence),
    (utf16 "pdf_text_sha256", .str pdf_text_sha256),
    (utf16 "pages_processed", .str pages_processed)])

/-- Lowercase hexadecimal digit. -/
def hexDigit (d : Nat) : CodeUnit := if d < 10 then Fin.ofNat (48 + d) else Fin.ofNat (87 + d)

/-- The abstract operation `UnicodeEscape`: a backslash, `u`, and four lowercase hex digits. -/
def unicodeEscape (c : CodeUnit) : JsString :=
  [92, 117, hexDigit (c.val / 4096), hexDigit (c.val / 256 % 16), hexDigit (c.val / 16 % 16),
    hexDigit (c.val % 16)]

/-- What `QuoteJSONString` emits for a code point that is a single code unit and not half of
a surrogate pair: the two-character escapes of backspace, tab, line feed, form feed,
carriage return, the double quote and the backslash; a `UnicodeEscape` for the other
control characters and for a lone surrogate; the code unit itself otherwise. -/
def escapeUnit (c : CodeUnit) : JsString :=
  if c.val = 8 then [92, 98]
  else if c.val = 9 then [92, 116]
  else if c.val = 10 then [92, 110]
  else if c.val = 12 then [92, 102]
  else if c.val = 13 then [92, 114]
  else if c.val = 34 then [92, 34]
  else if c.val = 92 then [92, 92]
  else if c.val < 32 || isLeadSurrogate c || isTrailSurrogate c then unicodeEscape c
  else [c]

/-- The code unit escaped by the two-character escape whose second character is `t`. -/
def shortEscaped (t : Nat) : Nat :=
  if t = 98 then 8 else if t = 116 then 9 else if t = 110 then 10 else if t = 102 then 12
  else if t = 114 then 13 else t

/-- The characters `QuoteJSONString` puts between the quotes: the string is read as code
points (a leading surrogate followed by a trailing one is one code point, copied
unchanged), every other code unit goes through `escapeUnit`. -/
def quoteBody : JsString → JsString
  | [] => []
  | [c] => escapeUnit c
  | c :: d :: rest =>
    if isLeadSurrogate c && isTrailSurrogate d then c :: d :: quoteBody rest
    else escapeUnit c ++ quoteBody (d :: rest)

/-- The abstract operation `QuoteJSONString`, which is `JSON.stringify` on a string. -/
def quoteJSONString (s : JsString) : JsString := (34 : CodeUnit) :: (quoteBody s ++ [34])

/-- The call `JSON.stringify(v)` for `v` that is `null` or not an object; the result is
`undefined` (here `none`) for `undefined`. -/
def jsonStringify (H : Host) : JsVal → Option JsString
  | .null => some (utf16 "null")
  | .bool true => some (utf16 "true")
  | .bool false => some (utf16 "false")
  | .num n => some (if n.isFinite then numberToString H n else utf16 "null")
  | .str s => some (quoteJSONString s)
  | _ => none

/-- String concatenation `s + r` where `r` is a string or `undefined`. -/
def plusStr (s : JsString) (r : Option JsString) : JsString :=
  s ++ r.getD (utf16 "undefined")

mutual
/-- The function `canonicalize` of schema.js. The result is a string, or `undefined`
(`none`) when the argument is `undefined`. In the object case the canonical forms of all
property values are computed first (`canonicalizeProps`) and then looked up for each
sorted key, which is `keys.map(k => ... canonicalize(obj[k]))`. -/
def canonicalize (H : Host) : JsVal → Option JsString
  | .arr xs =>
    some ((91 : CodeUnit) ::
      (joinComma ((canonicalizeList H xs).map (fun r => r.getD [])) ++ [93]))
  | .obj ps =>
    some ((123 : CodeUnit) ::
      (joinComma ((sortStrings (ps.map Prod.fst)).map (fun k =>
        plusStr (quoteJSONString k ++ [58]) ((lookupProp (canonicalizeProps H ps) k).getD none)))
        ++ [125]))
  | .undefined => jsonStringify H .undefined
  | .null => jsonStringify H .null
  | .bool b => jsonStringify H (.bool b)
  | .num n => jsonStringify H (.num n)
  | .str s => jsonStringify H (.str s)
/-- The call `xs.map(canonicalize)`. -/
def canonicalizeList (H : Host) : List JsVal → List (Option JsString)
  | [] => []
  | x :: xs => canonicalize H x :: canonicalizeList H xs
/-- Canonical form of every property value, keyed as in the object. -/
def canonicalizeProps (H : Host) : List (JsString × JsVal) → List (JsString × Option JsString)
  | [] => []
  | (k, v) :: ps => (k, canonicalize H v) :: canonicalizeProps H ps
end

/-- The Metadata Record of the data model: eleven strings and two sequences of strings. -/
structure MetadataRecord where
  title : JsString
  summary : JsString
  doc_type : JsString
  date_iso : JsString
  parties : List JsString
  tags : List JsString
  model : JsString
  model_hash : JsString
  prompt_hash : JsString
  agent_version : JsString
  extract_confidence : JsString
  pdf_text_sha256 : JsString
  pages_processed : JsString
  deriving DecidableEq

/-- The object `normalizeMetadata` builds for a record: the thirteen properties in the
order of the object literal. -/
def MetadataRecord.toJs (r : MetadataRecord) : JsVal :=
  .obj [
    (utf16 "title", .str r.title),
    (utf16 "summary", .str r.summary),
    (utf16 "doc_type", .str r.doc_type),
    (utf16 "date_iso", .str r.date_iso),
    (utf16 "parties", .arr (r.parties.map .str)),
    (utf16 "tags", .arr (r.tags.map .str)),
    (utf16 "model", .str r.model),
    (utf16 "model_hash", .str r.model_hash),
    (utf16 "prompt_hash", .str r.prompt_hash),
    (utf16 "agent_version", .str r.agent_version),
    (utf16 "extract_confidence", .str r.extract_confidence),
    (utf16 "pdf_text_sha256", .str r.pdf_text_sha256),
    (utf16 "pages_processed", .str r.pages_processed)]

/-! ## openaiClient.js -/

/-- The module constants of openaiClient.js, read from the process environment when the
module is loaded: `USE`, whether `OPENAI_API_KEY` is set, `MODEL`, `AGENT_VERSION`. -/
structure Env where
  USE : Bool
  hasApiKey : Bool
  MODEL : JsString
  AGENT_VERSION : JsString

/-- Whether `client` is not `null`: it is created when `USE && process.env.OPENAI_API_KEY`. -/
def Env.client (env : Env) : Bool := env.USE && env.hasApiKey

/-- The function `sha256Hex` of openaiClient.js (and `sha256HexStr` of server.js), on a
string. -/
def sha256Hex (H : Host) (str : JsString) : JsString := utf16 "0x" ++ H.sha256 str

/-- The prompt template of `summarizeText`. -/
def prompt : JsString :=
  utf16 ("You extract metadata from a PDF\x27s text. \nReturn *valid JSON* with keys: \n" ++
    "- title (string)\n- summary (<=120 words, string)\n- doc_type (string)\n" ++
    "- date_iso (YYYY-MM-DD or empty string)\n- parties (array of strings)\n" ++
    "- tags (array of strings)\n" ++
    "- extract_confidence (0..1 number summarizing your overall extraction confidence)\n\n" ++
    "If unknown, use empty strings/arrays. No extra commentary.")

/-- The integer `n` for which `n / 10^f - x` is as close to zero as possible, the larger one
if there are two, for `x = m · 2^e`: it is the floor of `x · 10^f + 1/2`. -/
def roundScaled (m : Nat) (e : Int) (f : Nat) : Nat :=
  match e with
  | .ofNat k => m * 2 ^ k * 10 ^ f
  | .negSucc k => (2 * m * 10 ^ f + 2 ^ (k + 1)) / (2 * 2 ^ (k + 1))

/-- Whether `m · 2^e` is at least `10^21`. -/
def geTenPow21 (m : Nat) (e : Int) : Bool :=
  match e with
  | .ofNat k => decide (10 ^ 21 ≤ m * 2 ^ k)
  | .negSucc k => decide (10 ^ 21 * 2 ^ (k + 1) ≤ m)

/-- The built-in `Number.prototype.toFixed(f)` for `0 <= f <= 100`: a non-finite number is
printed by `Number::toString`; a value of magnitude at least `10^21` too, after the sign;
otherwise the digits of the rounded scaled value, padded with zeros to `f + 1` digits, with
a decimal point before the last `f` digits. -/
def toFixed (H : Host) (x : JsNum) (f : Nat) : JsString :=
  match x with
  | .fin neg m e =>
    let s : JsString := if neg && decide (m ≠ 0) then utf16 "-" else []
    if geTenPow21 m e then s ++ H.positiveToString m e
    else
      let digits := natToDec (roundScaled m e f)
      if f = 0 then s ++ digits
      else
        let padded := List.replicate (f + 1 - digits.length) (48 : CodeUnit) ++ digits
        s ++ (padded.take (padded.length - f) ++ (46 : CodeUnit) :: padded.drop (padded.length - f))
  | x => numberToString H x

/-- The own enumerable properties an object spread `{...v}` copies: none for `undefined`,
`null`, a boolean or a number; the indexed characters of a string; the indexed elements of
an array; the properties of an object. -/
def spreadProps : JsVal → List (JsString × JsVal)
  | .str s => s.enum.map (fun p => (natToDec p.1, JsVal.str [p.2]))
  | .arr xs => xs.enum.map (fun p => (natToDec p.1, p.2))
  | .obj ps => ps
  | _ => []

/-- Definition of the property `k: v` in an object literal after a spread: an existing
property keeps its position and takes the new value, a new one is added last. -/
def setProp : List (JsString × JsVal) → JsString → JsVal → List (JsString × JsVal)
  | [], k, v => [(k, v)]
  | (k', v') :: rest, k, v =>
    if k' = k then (k, v) :: rest else (k', v') :: setProp rest k v

/-- The fallback object `stub` of `summarizeText`; `nowIso` is what
`new Date().toISOString()` returns when the function runs. -/
def stub (nowIso text : JsString) : JsVal :=
  .obj [
    (utf16 "title", .str (utf16 "Untitled")),
    (utf16 "summary", .str (text.take 500)),
    (utf16 "doc_type", .str (utf16 "document")),
    (utf16 "date_iso", .str (nowIso.take 10)),
    (utf16 "parties", .arr []),
    (utf16 "tags", .arr []),
    (utf16 "extract_confidence", .num (.fin false 1 (-1)))]

/-- The variable `base` of `summarizeText` when the object literal is evaluated: the stub,
replaced by the parsed response when `USE && client` holds and the `try` block did not
throw. The outcome `gen` of the `try` block is either the value `JSON.parse(content)`
returned or the exception raised by the request or by the parser. -/
def summarizeBase (env : Env) (nowIso text : JsString) (gen : Except JsError JsVal) : JsVal :=
  if env.USE && env.client then
    (match gen with
      | .ok v => v
      | .error _ => stub nowIso text)
  else stub nowIso text

/-- The expression `typeof c === "number" ? c.toFixed(3) : "0.500"` of `summarizeText`,
where `c` is `base.extract_confidence`. -/
def formatConfidence (H : Host) (c : JsVal) : JsString :=
  match c with
  | .num x => toFixed H x 3
  | _ => utf16 "0.500"

/-- The function `summarizeText` of openaiClient.js. Its environment is explicit: `nowIso` is
the clock reading `new Date().toISOString()` and `gen` the outcome of the `try` block. The
object literal is evaluated left to right: the spread first, then the read of
`base.extract_confidence`, which is outside the `try`. -/
def summarizeText (H : Host) (env : Env) (nowIso text : JsString)
    (gen : Except JsError JsVal) : Except JsError JsVal :=
  let base := summarizeBase env nowIso text gen
  let spread := spreadProps base
  do
    let c ← getProp base (utf16 "extract_confidence")
    pure (.obj
      (setProp (setProp (setProp (setProp (setProp spread
        (utf16 "extract_confidence") (.str (formatConfidence H c)))
        (utf16 "model") (.str env.MODEL))
        (utf16 "model_hash") (.str (sha256Hex H env.MODEL)))
        (utf16 "prompt_hash") (.str (sha256Hex H prompt)))
        (utf16 "agent_version") (.str env.AGENT_VERSION)))

/-! ## server.js -/

/-- What the routes derive from a metadata object. -/
structure MetaOutcome where
  metadata : JsVal
  canonical : JsString
  metaHash : JsString

/-- The function `keccakHex` of server.js applied to `Buffer.from(canonical, "utf8")`;
`Buffer.from(undefined)` throws a `TypeError`. -/
def keccakHexOfCanonical (H : Host) (canonical : Option JsString) : Except JsError JsString :=
  match canonical with
  | some s => .ok (utf16 "0x" ++ H.keccak256 s)
  | none => .error .typeError

/-- The steps normalise, canonicalise, hash shared by `/analyze` (server.js lines 102-104)
and `/verify/meta` (lines 152-154). -/
def metaOutcome (H : Host) (candidate : JsVal) : Except JsError MetaOutcome := do
  let metadata ← normalizeMetadata H candidate
  let canonical := canonicalize H metadata
  let metaHash ← keccakHexOfCanonical H canonical
  pure ⟨metadata, canonical.getD [], metaHash⟩

/-- The metadata path of `POST /analyze` (server.js lines 93-104) once the extraction has
returned a non-empty `text` and `pagesProcessed`: hash the text, summarise, merge, normalise,
canonicalise, hash. -/
def analyzeMeta (H : Host) (env : Env) (nowIso text : JsString) (pagesProcessed : JsNum)
    (gen : Except JsError JsVal) : Except JsError MetaOutcome := do
  let textSha := sha256Hex H text
  let base ← summarizeText H env nowIso text gen
  let merged := JsVal.obj
    (setProp (setProp (spreadProps base)
      (utf16 "pdf_text_sha256") (.str textSha))
      (utf16 "pages_processed") (.str (numberToString H pagesProcessed)))
  metaOutcome H merged

/-- The metadata path of `POST /verify/meta` (server.js lines 152-154) on a request body
that passed the guard `req.body && typeof req.body === "object"`. -/
def verifyMeta (H : Host) (body : JsVal) : Except JsError MetaOutcome :=
  metaOutcome H body

/-- Host functions used by the routes only, left uninterpreted: the Keccak-256 digest of a
byte buffer (lowercase hex) and the text `String(e?.message || e)` of an exception. -/
structure RouteHost where
  keccak256 : List (Fin 256) → JsString
  errorDetail : JsError → JsString

/-- The uploaded file `req.file` (memory storage): its bytes; `req.file.size` is their
number. -/
structure Upload where
  buffer : List (Fin 256)

/-- The calls `POST /analyze` makes to the hash functions and to the two collaborators:
`keccakHex(fileBuf)`, `extractPdfText(fileBuf)`, `sha256HexStr(text)`, `summarizeText(text)`
and `keccakHex(Buffer.from(canonical, "utf8"))`. -/
inductive Call where
  | keccakHexFile
  | extractPdfText
  | sha256HexStr
  | summarizeText
  | keccakHexCanonical
  deriving DecidableEq, Repr

/-- An HTTP response: status code and JSON body. -/
structure Response where
  status : Nat
  body : JsVal

/-- The response of the `catch` block of a route. -/
def internalError (R : RouteHost) (e : JsError) : Response :=
  ⟨500, .obj [(utf16 "error", .str (utf16 "internal_error")),
    (utf16 "detail", .str (R.errorDetail e))]⟩

/-- The route `POST /analyze` of server.js (lines 79-118): the response, and the calls made
on the way, in order. `extraction` is the outcome of `extractPdfText`, the pair `text`,
`pagesProcessed` or an exception; `gen` and `nowIso` are the environment of `summarizeText`,
read only if it is called. -/
def analyze (H : Host) (R : RouteHost) (env : Env) (nowIso : JsString) (file : Option Upload)
    (extraction : Except JsError (JsString × JsNum)) (gen : Except JsError JsVal) :
    Response × List Call :=
  match file with
  | none => (⟨400, .obj [(utf16 "error", .str (utf16 "file is required"))]⟩, [])
  | some f =>
    let docHash := utf16 "0x" ++ R.keccak256 f.buffer
    match extraction with
    | .error e => (internalError R e, [.keccakHexFile, .extractPdfText])
    | .ok (text, pagesProcessed) =>
      if text = [] then
        (⟨422, .obj [(utf16 "error",
            .str (utf16 "No text found in PDF (OCR not enabled in this build)"))]⟩,
          [.keccakHexFile, .extractPdfText])
      else
        match analyzeMeta H env nowIso text pagesProcessed gen with
        | .error e =>
          (internalError R e,
            [.keccakHexFile, .extractPdfText, .sha256HexStr, .summarizeText])
        | .ok o =>
          (⟨200, .obj [
              (utf16 "ok", .bool true),
              (utf16 "bytes", .num (.fin false f.buffer.length 0)),
              (utf16 "docHash", .str docHash),
              (utf16 "metaHash", .str o.metaHash),
              (utf16 "metadata", o.metadata),
              (utf16 "canonical_len", .num (.fin false o.canonical.length 0))]⟩,
            [.keccakHexFile, .extractPdfText, .sha256HexStr, .summarizeText,
              .keccakHexCanonical])

/-! ## Specification-side properties -/

/-- The string `s` is `t` with leading and trailing whitespace removed: `t` is `s` between
two runs of whitespace, and `s` neither starts nor ends with whitespace. -/
def IsTrimOf (t s : JsString) : Prop :=
  ∃ l r, t = l ++ s ++ r ∧ (∀ c ∈ l, isWhiteSpace c = true) ∧ (∀ c ∈ r, isWhiteSpace c = true) ∧
    (∀ c, s.head? = some c → isWhiteSpace c = false) ∧
    (∀ c, s.getLast? = some c → isWhiteSpace c = false)

/-- The value the specification gives a scalar field read as `v`: the empty string when `v`
is `undefined` (also the result of reading an absent key) or `null`, otherwise the string
coercion of `v` with leading and trailing whitespace removed. -/
def ScalarField (H : Host) (v : JsVal) (s : JsString) : Prop :=
  ((v = .undefined ∨ v = .null) ∧ s = []) ∨
  (v ≠ .undefined ∧ v ≠ .null ∧ ∃ t, toStr H v = .ok t ∧ IsTrimOf t s)

/-- The value the specification gives `parties` and `tags` read as `v`: the empty sequence
when `v` is not an array, otherwise the string coercions of its elements, in order. -/
def SeqField (H : Host) (v : JsVal) (ss : List JsString) : Prop :=
  ((∀ xs, v ≠ .arr xs) ∧ ss = []) ∨
  (∃ xs, v = .arr xs ∧ List.Forall₂ (fun x s => toStr H x = .ok s) xs ss)

/-- The value read under key `k` of a candidate mapping, `undefined` when the key is
absent. -/
def candidateValue (ps : List (JsString × JsVal)) (k : JsString) : JsVal :=
  (lookupProp ps k).getD .undefined

mutual
/-- Whether `String(v)` returns: `v` is not an object with an own property `toString`, nor an
array that contains, at any depth of arrays, such an object. -/
def stringable : JsVal → Bool
  | .arr xs => stringableList xs
  | .obj ps => !hasOwn ps (utf16 "toString")
  | _ => true
/-- Whether every element is `stringable`. -/
def stringableList : List JsVal → Bool
  | [] => true
  | x :: xs => stringable x && stringableList xs
end

/-- Whether `String` returns on every element of `v` if `v` is an array. -/
def elementsStringable (v : JsVal) : Bool :=
  match v with
  | .arr xs => stringableList xs
  | _ => true

/-- The eleven scalar schema keys. -/
def scalarKeys : List JsString :=
  [utf16 "title", utf16 "summary", utf16 "doc_type", utf16 "date_iso", utf16 "model",
    utf16 "model_hash", utf16 "prompt_hash", utf16 "agent_version",
    utf16 "extract_confidence", utf16 "pdf_text_sha256", utf16 "pages_processed"]

/-- Whether every coercion `normalizeMetadata` applies to the candidate returns: the value
under each scalar key is `stringable`, and so is each element of an array under `parties`
or `tags`. -/
def coercible (ps : List (JsString × JsVal)) : Bool :=
  scalarKeys.all (fun k => stringable (candidateValue ps k)) &&
  elementsStringable (candidateValue ps (utf16 "parties")) &&
  elementsStringable (candidateValue ps (utf16 "tags"))

/-- The thirteen schema keys, in the order of the object literal of `normalizeMetadata`. -/
def schemaKeys : List JsString :=
  [utf16 "title", utf16 "summary", utf16 "doc_type", utf16 "date_iso", utf16 "parties",
    utf16 "tags", utf16 "model", utf16 "model_hash", utf16 "prompt_hash",
    utf16 "agent_version", utf16 "extract_confidence", utf16 "pdf_text_sha256",
    utf16 "pages_processed"]

/-- Two values have the same content up to the insertion order of object keys: they are
equal, or arrays of the same length whose elements are pairwise so related, or objects with
the same set of keys whose values under each key are so related. -/
inductive SameUpToKeyOrder : JsVal → JsVal → Prop where
  | refl (v : JsVal) : SameUpToKeyOrder v v
  | arr (xs ys : List JsVal) (hlen : xs.length = ys.length)
      (h : ∀ (i : Nat) (h1 : i < xs.length) (h2 : i < ys.length),
        SameUpToKeyOrder (xs.get ⟨i, h1⟩) (ys.get ⟨i, h2⟩)) :
      SameUpToKeyOrder (.arr xs) (.arr ys)
  | obj (ps qs : List (JsString × JsVal))
      (hp : (ps.map Prod.fst).Nodup) (hq : (qs.map Prod.fst).Nodup)
      (hkeys : ∀ k, k ∈ ps.map Prod.fst ↔ k ∈ qs.map Prod.fst)
      (h : ∀ k v w, (k, v) ∈ ps → (k, w) ∈ qs → SameUpToKeyOrder v w) :
      SameUpToKeyOrder (.obj ps) (.obj qs)

/-- Whether `summarizeText` keeps the stub as `base`: no client, or the `try` block threw. -/
def usesStub (env : Env) (gen : Except JsError JsVal) : Bool :=
  !(env.USE && env.client) ||
    (match gen with
      | .ok _ => false
      | .error _ => true)

/-- A decimal string `d.ddd` with exactly three fractional digits whose value lies between
`0.000` and `1.000`. -/
def isConfidenceString (s : JsString) : Bool :=
  match s with
  | [i, p, a, b, c] =>
    p.val == 46 && decide (48 ≤ i.val) && decide (48 ≤ a.val) && decide (a.val ≤ 57) &&
    decide (48 ≤ b.val) && decide (b.val ≤ 57) && decide (48 ≤ c.val) && decide (c.val ≤ 57) &&
    decide ((i.val - 48) * 1000 + (a.val - 48) * 100 + (b.val - 48) * 10 + (c.val - 48) ≤ 1000)
  | _ => false

/-- Whether a number is finite with `0 <= x <= 1`. -/
def inUnitInterval : JsNum → Bool
  | .fin neg m e =>
    (!neg || decide (m = 0)) &&
      (match e with
        | .ofNat k => decide (m * 2 ^ k ≤ 1)
        | .negSucc k => decide (m ≤ 2 ^ (k + 1)))
  | _ => false

/-- The comparison `x < y` on strings: strict lexicographic order on code units, a proper
prefix being smaller. -/
def strLt : JsString → JsString → Bool
  | _, [] => false
  | [], _ :: _ => true
  | a :: as, b :: bs => if a < b then true else if b < a then false else strLt as bs

/-- The UTF-8 encoding of a code point. -/
def utf8CodePoint (cp : Nat) : List (Fin 256) :=
  if cp < 128 then [Fin.ofNat cp]
  else if cp < 2048 then [Fin.ofNat (192 + cp / 64), Fin.ofNat (128 + cp % 64)]
  else if cp < 65536 then
    [Fin.ofNat (224 + cp / 4096), Fin.ofNat (128 + cp / 64 % 64), Fin.ofNat (128 + cp % 64)]
  else
    [Fin.ofNat (240 + cp / 262144), Fin.ofNat (128 + cp / 4096 % 64),
      Fin.ofNat (128 + cp / 64 % 64), Fin.ofNat (128 + cp % 64)]

/-- The code point of a code unit that is not part of a surrogate pair: itself, or U+FFFD
for a lone surrogate. -/
def loneCodePoint (c : CodeUnit) : Nat :=
  if isLeadSurrogate c || isTrailSurrogate c then 65533 else c.val

/-- The byte-wise (UTF-8) encoding of a string, as `Buffer.from(s, "utf8")` computes it: a
surrogate pair is one code point, a lone surrogate is replaced by U+FFFD. -/
def utf8Encode : JsString → List (Fin 256)
  | [] => []
  | [c] => utf8CodePoint (loneCodePoint c)
  | c :: d :: rest =>
    if isLeadSurrogate c && isTrailSurrogate d then
      utf8CodePoint (65536 + (c.val - 55296) * 1024 + (d.val - 56320)) ++ utf8Encode rest
    else utf8CodePoint (loneCodePoint c) ++ utf8Encode (d :: rest)

/-- Strict lexicographic order on byte sequences. -/
def bytesLt : List (Fin 256) → List (Fin 256) → Bool
  | _, [] => false
  | [], _ :: _ => true
  | a :: as, b :: bs => if a < b then true else if b < a then false else bytesLt as bs

/-- Whether no code unit of the string is a surrogate: all its characters are in the Basic
Multilingual Plane. -/
def surrogateFree (s : JsString) : Bool :=
  s.all (fun c => !(isLeadSurrogate c || isTrailSurrogate c))

/-- A sequence of strings as the canonical text writes it: the quoted elements, comma-joined,
between brackets. -/
def quotedSeq (xs : List JsString) : JsString :=
  (91 : CodeUnit) :: (joinComma (xs.map quoteJSONString) ++ [93])

/-- The text of the canonical string of a record outside its thirteen values: the opening
brace with the first key, then a comma with each next key, in ascending key order, and the
closing brace. -/
def canonicalSeparators : List JsString :=
  [utf16 "\x7b\"agent_version\":", utf16 ",\"date_iso\":", utf16 ",\"doc_type\":",
    utf16 ",\"extract_confidence\":", utf16 ",\"model\":", utf16 ",\"model_hash\":",
    utf16 ",\"pages_processed\":", utf16 ",\"parties\":", utf16 ",\"pdf_text_sha256\":",
    utf16 ",\"prompt_hash\":", utf16 ",\"summary\":", utf16 ",\"tags\":", utf16 ",\"title\":",
    utf16 "\x7d"]

/-- The thirteen values of a record as the canonical text writes them, in the order of
`canonicalSeparators`: each string JSON-quoted, each sequence as `quotedSeq`. -/
def canonicalValues (R : MetadataRecord) : List JsString :=
  [quoteJSONString R.agent_version, quoteJSONString R.date_iso, quoteJSONString R.doc_type,
    quoteJSONString R.extract_confidence, quoteJSONString R.model,
    quoteJSONString R.model_hash, quoteJSONString R.pages_processed, quotedSeq R.parties,
    quoteJSONString R.pdf_text_sha256, quoteJSONString R.prompt_hash,
    quoteJSONString R.summary, quotedSeq R.tags, quoteJSONString R.title]

/-- Separators and values in alternation, starting with a separator. -/
def interleave : List JsString → List JsString → JsString
  | s :: ss, v :: vs => s ++ v ++ interleave ss vs
  | ss, [] => ss.flatten
  | [], _ :: _ => []

/-- The canonical string the specification gives a record. -/
def canonicalText (R : MetadataRecord) : JsString :=
  interleave canonicalSeparators (canonicalValues R)

/-! ## Example environment -/

/-- A host for the examples, none of which depends on how a fraction is printed or on the
value of a digest: integers are printed in decimal, fractions by the digits of their
mantissa, and both digests are empty. -/
def exampleHost : Host where
  positiveToString := fun m e =>
    match e with
    | .ofNat k => natToDec (m * 2 ^ k)
    | .negSucc _ => natToDec m
  sha256 := fun _ => []
  keccak256 := fun _ => []

/-- The defaults of openaiClient.js with an API key configured. -/
def exampleEnv : Env := ⟨true, true, utf16 "gpt-4o-mini", utf16 "v1"⟩

/-- A route host for the examples: empty digest and empty error text. -/
def exampleRouteHost : RouteHost := ⟨fun _ => [], fun _ => []⟩

/-- The candidate of example scenario 1: `{title: "Lease", parties: ["A", "B"], tags: []}`. -/
def leaseCandidate : List (JsString × JsVal) :=
  [(utf16 "title", .str (utf16 "Lease")),
    (utf16 "parties", .arr [.str (utf16 "A"), .str (utf16 "B")]),
    (utf16 "tags", .arr [])]

/-! ## Theorems -/

/-! ### Quoting is self-delimiting -/

theorem hexDigit_val (d : Nat) (h : d < 16) :
    (hexDigit d).val = if d < 10 then 48 + d else 87 + d := by
  unfold hexDigit
  split <;> simp [Fin.ofNat] <;> omega

theorem hexDigit_inj {a b : Nat} (ha : a < 16) (hb : b < 16) (h : hexDigit a = hexDigit b) :
    a = b := by
  have h1 := congrArg Fin.val h
  rw [hexDigit_val a ha, hexDigit_val b hb] at h1
  split at h1 <;> split at h1 <;> omega

theorem unicodeEscape_inj {c d : CodeUnit} {x y : JsString}
    (h : unicodeEscape c ++ x = unicodeEscape d ++ y) : c = d ∧ x = y := by
  simp only [unicodeEscape, List.cons_append, List.nil_append, List.cons.injEq, true_and] at h
  obtain ⟨h1, h2, h3, h4, h5⟩ := h
  have hc := c.isLt
  have hd := d.isLt
  have e1 := hexDigit_inj (by omega) (by omega) h1
  have e2 := hexDigit_inj (by omega) (by omega) h2
  have e3 := hexDigit_inj (by omega) (by omega) h3
  have e4 := hexDigit_inj (by omega) (by omega) h4
  exact ⟨Fin.ext (by omega), h5⟩

theorem escapeUnit_cases (c : CodeUnit) :
    (escapeUnit c = [c] ∧ c.val ≠ 92 ∧ c.val ≠ 34 ∧ isLeadSurrogate c = false) ∨
    (∃ t : CodeUnit, escapeUnit c = [92, t] ∧ t.val ≠ 117 ∧ c.val = shortEscaped t.val) ∨
    escapeUnit c = unicodeEscape c := by
  unfold escapeUnit
  split_ifs with a1 a2 a3 a4 a5 a6 a7 a8
  · exact Or.inr (Or.inl ⟨98, rfl, by decide, by rw [a1]; rfl⟩)
  · exact Or.inr (Or.inl ⟨116, rfl, by decide, by rw [a2]; rfl⟩)
  · exact Or.inr (Or.inl ⟨110, rfl, by decide, by rw [a3]; rfl⟩)
  · exact Or.inr (Or.inl ⟨102, rfl, by decide, by rw [a4]; rfl⟩)
  · exact Or.inr (Or.inl ⟨114, rfl, by decide, by rw [a5]; rfl⟩)
  · exact Or.inr (Or.inl ⟨34, rfl, by decide, by rw [a6]; rfl⟩)
  · exact Or.inr (Or.inl ⟨92, rfl, by decide, by rw [a7]; rfl⟩)
  · exact Or.inr (Or.inr rfl)
  · refine Or.inl ⟨rfl, a7, a6, ?_⟩
    simp only [Bool.or_eq_true, not_or, Bool.not_eq_true] at a8
    exact a8.1.2

theorem escapeUnit_prefix_free {c d : CodeUnit} {x y : JsString}
    (h : escapeUnit c ++ x = escapeUnit d ++ y) : c = d ∧ x = y := by
  rcases escapeUnit_cases c with ⟨ec, c1, c2, -⟩ | ⟨t, ec, ht, hct⟩ | ec <;>
  rcases escapeUnit_cases d with ⟨ed, d1, d2, -⟩ | ⟨u, ed, hu, hdu⟩ | ed <;>
  rw [ec, ed] at h
  · simpa using h
  · simp only [List.cons_append, List.nil_append, List.cons.injEq] at h
    exact absurd (congrArg Fin.val h.1) c1
  · simp only [unicodeEscape, List.cons_append, List.nil_append, List.cons.injEq] at h
    exact absurd (congrArg Fin.val h.1) c1
  · simp only [List.cons_append, List.nil_append, List.cons.injEq] at h
    exact absurd (congrArg Fin.val h.1).symm d1
  · simp only [List.cons_append, List.nil_append, List.cons.injEq, true_and] at h
    refine ⟨Fin.ext ?_, h.2⟩
    rw [hct, hdu, h.1]
  · simp only [unicodeEscape, List.cons_append, List.nil_append, List.cons.injEq, true_and] at h
    exact absurd (congrArg Fin.val h.1) ht
  · simp only [unicodeEscape, List.cons_append, List.nil_append, List.cons.injEq] at h
    exact absurd (congrArg Fin.val h.1).symm d1
  · simp only [unicodeEscape, List.cons_append, List.nil_append, List.cons.injEq, true_and] at h
    exact absurd (congrArg Fin.val h.1).symm hu
  · exact unicodeEscape_inj h

/-- The first code unit `escapeUnit` emits is never a double quote nor a leading surrogate. -/
theorem escapeUnit_head (c : CodeUnit) :
    ∃ h t, escapeUnit c = h :: t ∧ h.val ≠ 34 ∧ isLeadSurrogate h = false := by
  rcases escapeUnit_cases c with ⟨ec, -, c2, c3⟩ | ⟨t, ec, -, -⟩ | ec
  · exact ⟨c, [], ec, c2, c3⟩
  · exact ⟨92, [t], ec, by decide, by decide⟩
  · exact ⟨92, _, ec, by decide, by decide⟩

theorem quoteBody_cons (c : CodeUnit) (rest : JsString) :
    (∃ d rest', rest = d :: rest' ∧ isLeadSurrogate c = true ∧
      quoteBody (c :: rest) = c :: d :: quoteBody rest') ∨
    quoteBody (c :: rest) = escapeUnit c ++ quoteBody rest := by
  cases rest with
  | nil => right; simp [quoteBody]
  | cons d rest' =>
    by_cases hp : (isLeadSurrogate c && isTrailSurrogate d) = true
    · left
      refine ⟨d, rest', rfl, ?_, ?_⟩
      · simp only [Bool.and_eq_true] at hp; exact hp.1
      · simp [quoteBody, hp]
    · right
      simp [quoteBody, hp]

theorem quoteBody_delim_aux (n : Nat) : ∀ (a b x y : JsString), a.length ≤ n →
    quoteBody a ++ (34 : CodeUnit) :: x = quoteBody b ++ (34 : CodeUnit) :: y → a = b ∧ x = y := by
  induction n using Nat.strong_induction_on with
  | _ n ih =>
    intro a b x y hn h
    cases a with
    | nil =>
      cases b with
      | nil => simpa [quoteBody] using h
      | cons d b' =>
        exfalso
        rcases quoteBody_cons d b' with ⟨d2, r, -, hl, e⟩ | e
        · rw [e] at h
          simp only [quoteBody, List.nil_append, List.cons_append, List.cons.injEq] at h
          rw [← h.1] at hl
          revert hl; decide
        · obtain ⟨u, t, eu, hu, -⟩ := escapeUnit_head d
          rw [e, eu] at h
          simp only [quoteBody, List.nil_append, List.cons_append, List.cons.injEq] at h
          exact hu (by rw [← h.1]; rfl)
    | cons c a' =>
      cases b with
      | nil =>
        exfalso
        rcases quoteBody_cons c a' with ⟨d2, r, -, hl, e⟩ | e
        · rw [e] at h
          simp only [quoteBody, List.nil_append, List.cons_append, List.cons.injEq] at h
          rw [h.1] at hl
          revert hl; decide
        · obtain ⟨u, t, eu, hu, -⟩ := escapeUnit_head c
          rw [e, eu] at h
          simp only [quoteBody, List.nil_append, List.cons_append, List.cons.injEq] at h
          exact hu (by rw [h.1]; rfl)
      | cons d b' =>
        rcases quoteBody_cons c a' with ⟨c2, ra, ea, hlc, e1⟩ | e1 <;>
        rcases quoteBody_cons d b' with ⟨d2, rb, eb, hld, e2⟩ | e2
        · rw [e1, e2] at h
          simp only [List.cons_append, List.cons.injEq] at h
          obtain ⟨h1, h2, h3⟩ := h
          subst ea eb
          simp only [List.length_cons] at hn
          have := ih (n - 2) (by omega) ra rb x y (by omega) h3
          exact ⟨by rw [h1, h2, this.1], this.2⟩
        · exfalso
          obtain ⟨u, t, eu, -, hu⟩ := escapeUnit_head d
          rw [e1, e2, eu] at h
          simp only [List.cons_append, List.cons.injEq] at h
          rw [h.1, hu] at hlc
          exact Bool.false_ne_true hlc
        · exfalso
          obtain ⟨u, t, eu, -, hu⟩ := escapeUnit_head c
          rw [e1, e2, eu] at h
          simp only [List.cons_append, List.cons.injEq] at h
          rw [← h.1, hu] at hld
          exact Bool.false_ne_true hld
        · rw [e1, e2, List.append_assoc, List.append_assoc] at h
          obtain ⟨hcd, hrest⟩ := escapeUnit_prefix_free h
          simp only [List.length_cons] at hn
          have := ih (n - 1) (by omega) a' b' x y (by omega) hrest
          exact ⟨by rw [hcd, this.1], this.2⟩

/-- A quoted string is self-delimiting: whatever follows it, the string and the rest can
be read back. -/
theorem quoteJSONString_delim {a b x y : JsString}
    (h : quoteJSONString a ++ x = quoteJSONString b ++ y) : a = b ∧ x = y := by
  simp only [quoteJSONString, List.cons_append, List.append_assoc, List.singleton_append,
    List.cons.injEq, true_and] at h
  exact quoteBody_delim_aux a.length a b x y (Nat.le_refl _) h

theorem quoteJSONString_append_inj (a b x y : JsString) :
    quoteJSONString a ++ x = quoteJSONString b ++ y ↔ a = b ∧ x = y :=
  ⟨quoteJSONString_delim, fun h => by rw [h.1, h.2]⟩

theorem joinComma_cons (s : JsString) (rest : List JsString) :
    joinComma (s :: rest) =
      s ++ (match rest with
        | [] => []
        | t :: r => (44 : CodeUnit) :: joinComma (t :: r)) := by
  cases rest <;> simp [joinComma]

theorem joinComma_quoted_delim : ∀ (xs ys : List JsString) (x y : JsString),
    joinComma (xs.map quoteJSONString) ++ (93 : CodeUnit) :: x =
      joinComma (ys.map quoteJSONString) ++ (93 : CodeUnit) :: y → xs = ys ∧ x = y := by
  intro xs
  induction xs with
  | nil =>
    intro ys x y h
    cases ys with
    | nil => simpa [joinComma] using h
    | cons b ys' =>
      exfalso
      rw [List.map_cons, joinComma_cons] at h
      simp [joinComma, quoteJSONString] at h
  | cons a xs' ih =>
    intro ys x y h
    cases ys with
    | nil =>
      exfalso
      rw [List.map_cons, joinComma_cons] at h
      simp [joinComma, quoteJSONString] at h
    | cons b ys' =>
      rw [List.map_cons, List.map_cons, joinComma_cons, joinComma_cons, List.append_assoc,
        List.append_assoc] at h
      obtain ⟨hab, hrest⟩ := quoteJSONString_delim h
      subst hab
      cases xs' with
      | nil =>
        cases ys' with
        | nil => simp at hrest; simp [hrest]
        | cons c yt => simp at hrest
      | cons c xt =>
        cases ys' with
        | nil => simp at hrest
        | cons e yt =>
          simp only [List.map_cons, List.cons_append, List.cons.injEq, true_and] at hrest
          have := ih (e :: yt) x y (by simpa using hrest)
          simp [this.1, this.2]

theorem canonicalizeList_str (H : Host) (xs : List JsString) :
    (canonicalizeList H (xs.map JsVal.str)).map (fun r => r.getD []) =
      xs.map quoteJSONString := by
  induction xs with
  | nil => rfl
  | cons a xs ih =>
    simp only [List.map_cons, canonicalizeList, canonicalize, jsonStringify, Option.getD_some,
      List.cons.injEq, true_and]
    exact ih

set_option maxRecDepth 100000 in
theorem canonicalize_toJs (H : Host) (r : MetadataRecord) :
    canonicalize H r.toJs = some ((123 : CodeUnit) :: (joinComma [
      quoteJSONString (utf16 "agent_version") ++ [58] ++ quoteJSONString r.agent_version,
      quoteJSONString (utf16 "date_iso") ++ [58] ++ quoteJSONString r.date_iso,
      quoteJSONString (utf16 "doc_type") ++ [58] ++ quoteJSONString r.doc_type,
      quoteJSONString (utf16 "extract_confidence") ++ [58] ++
        quoteJSONString r.extract_confidence,
      quoteJSONString (utf16 "model") ++ [58] ++ quoteJSONString r.model,
      quoteJSONString (utf16 "model_hash") ++ [58] ++ quoteJSONString r.model_hash,
      quoteJSONString (utf16 "pages_processed") ++ [58] ++ quoteJSONString r.pages_processed,
      quoteJSONString (utf16 "parties") ++ [58] ++
        ((91 : CodeUnit) :: (joinComma (r.parties.map quoteJSONString) ++ [93])),
      quoteJSONString (utf16 "pdf_text_sha256") ++ [58] ++ quoteJSONString r.pdf_text_sha256,
      quoteJSONString (utf16 "prompt_hash") ++ [58] ++ quoteJSONString r.prompt_hash,
      quoteJSONString (utf16 "summary") ++ [58] ++ quoteJSONString r.summary,
      quoteJSONString (utf16 "tags") ++ [58] ++
        ((91 : CodeUnit) :: (joinComma (r.tags.map quoteJSONString) ++ [93])),
      quoteJSONString (utf16 "title") ++ [58] ++ quoteJSONString r.title] ++ [125])) := by
  rw [← canonicalizeList_str H r.parties, ← canonicalizeList_str H r.tags]
  rfl

theorem joinComma_quoted_append_inj (xs ys : List JsString) (x y : JsString) :
    joinComma (xs.map quoteJSONString) ++ (93 : CodeUnit) :: x =
      joinComma (ys.map quoteJSONString) ++ (93 : CodeUnit) :: y ↔ xs = ys ∧ x = y :=
  ⟨joinComma_quoted_delim xs ys x y, fun h => by rw [h.1, h.2]⟩

/-- Equal canonical strings come from equal records. -/
theorem canonicalize_toJs_inj (H : Host) (r1 r2 : MetadataRecord)
    (h : canonicalize H r1.toJs = canonicalize H r2.toJs) : r1 = r2 := by
  rw [canonicalize_toJs, canonicalize_toJs] at h
  cases r1; cases r2
  simp only [Option.some.injEq, List.cons.injEq, true_and, joinComma, List.append_assoc,
    List.cons_append, List.nil_append, quoteJSONString_append_inj,
    joinComma_quoted_append_inj, and_true] at h
  simp only [MetadataRecord.mk.injEq]
  tauto

/-- C1: two normalized metadata records that differ, in any field value or in the order of
the elements of `parties` or `tags`, have different canonical strings; `canonicalize` is
injective on normalized records. -/
theorem canonicalize_sensitive (H : Host) (r1 r2 : MetadataRecord) (h : r1 ≠ r2) :
    canonicalize H r1.toJs ≠ canonicalize H r2.toJs :=
  fun e => h (canonicalize_toJs_inj H r1 r2 e)

/-- C1, instance: reordering `parties` changes the canonical string. -/
theorem canonicalize_sensitive_witness :
    (⟨utf16 "Lease", [], [], [], [utf16 "A", utf16 "B"], [], [], [], [], [], [], [], []⟩ :
        MetadataRecord) ≠
      ⟨utf16 "Lease", [], [], [], [utf16 "B", utf16 "A"], [], [], [], [], [], [], [], []⟩ ∧
    canonicalize exampleHost (MetadataRecord.toJs
      ⟨utf16 "Lease", [], [], [], [utf16 "A", utf16 "B"], [], [], [], [], [], [], [], []⟩) ≠
    canonicalize exampleHost (MetadataRecord.toJs
      ⟨utf16 "Lease", [], [], [], [utf16 "B", utf16 "A"], [], [], [], [], [], [], [], []⟩) :=
  ⟨by decide, canonicalize_sensitive exampleHost _ _ (by decide)⟩

/-! ### Sorting and key order -/

theorem strLe_refl : ∀ a : JsString, strLe a a = true
  | [] => rfl
  | a :: as => by simp [strLe, strLe_refl as]

theorem strLe_total : ∀ a b : JsString, strLe a b = true ∨ strLe b a = true
  | [], _ => Or.inl rfl
  | _ :: _, [] => Or.inr rfl
  | a :: as, b :: bs => by
    rcases lt_trichotomy a b with h | h | h
    · left; simp [strLe, h]
    · subst h; simpa [strLe] using strLe_total as bs
    · right; simp [strLe, h]

theorem strLe_antisymm : ∀ a b : JsString, strLe a b = true → strLe b a = true → a = b
  | [], [], _, _ => rfl
  | [], _ :: _, _, h => by simp [strLe] at h
  | _ :: _, [], h, _ => by simp [strLe] at h
  | a :: as, b :: bs, h1, h2 => by
    rcases lt_trichotomy a b with h | h | h
    · simp [strLe, h, not_lt_of_lt h] at h2
    · subst h
      simp only [strLe, lt_self_iff_false, if_false] at h1 h2
      rw [strLe_antisymm as bs h1 h2]
    · simp [strLe, h, not_lt_of_lt h] at h1

theorem strLe_trans : ∀ a b c : JsString, strLe a b = true → strLe b c = true →
    strLe a c = true
  | [], _, _, _, _ => rfl
  | _ :: _, [], _, h, _ => by simp [strLe] at h
  | _ :: _, _ :: _, [], _, h => by simp [strLe] at h
  | a :: as, b :: bs, c :: cs, h1, h2 => by
    rcases lt_trichotomy a b with hab | hab | hab
    · rcases lt_trichotomy b c with hbc | hbc | hbc
      · simp [strLe, lt_trans hab hbc]
      · subst hbc; simp [strLe, hab]
      · simp [strLe, hbc, not_lt_of_lt hbc] at h2
    · subst hab
      rcases lt_trichotomy a c with hbc | hbc | hbc
      · simp [strLe, hbc]
      · subst hbc
        simp only [strLe, lt_self_iff_false, if_false] at h1 h2 ⊢
        exact strLe_trans as bs cs h1 h2
      · simp [strLe, hbc, not_lt_of_lt hbc] at h2
    · simp [strLe, hab, not_lt_of_lt hab] at h1

theorem sortStrings_eq_of_perm {ks ls : List JsString} (h : ks.Perm ls) :
    sortStrings ks = sortStrings ls := by
  haveI : IsTotal JsString (fun a b => strLe a b = true) := ⟨strLe_total⟩
  haveI : IsTrans JsString (fun a b => strLe a b = true) := ⟨strLe_trans⟩
  haveI : IsAntisymm JsString (fun a b => strLe a b = true) := ⟨strLe_antisymm⟩
  unfold sortStrings
  apply List.eq_of_perm_of_sorted _ (List.sorted_insertionSort _ _) (List.sorted_insertionSort _ _)
  exact ((List.perm_insertionSort _ ks).trans h).trans (List.perm_insertionSort _ ls).symm

theorem mem_sortStrings {k : JsString} {ks : List JsString} : k ∈ sortStrings ks ↔ k ∈ ks :=
  (List.perm_insertionSort _ ks).mem_iff

theorem canonicalizeList_eq_map (H : Host) (xs : List JsVal) :
    canonicalizeList H xs = xs.map (canonicalize H) := by
  induction xs with
  | nil => rfl
  | cons x xs ih => simp [canonicalizeList, ih]

theorem lookupProp_canonicalizeProps (H : Host) (ps : List (JsString × JsVal)) (k : JsString) :
    lookupProp (canonicalizeProps H ps) k = (lookupProp ps k).map (canonicalize H) := by
  induction ps with
  | nil => rfl
  | cons p ps ih =>
    obtain ⟨k', v⟩ := p
    simp only [canonicalizeProps, lookupProp]
    split
    · rfl
    · exact ih

theorem lookupProp_mem {α : Type} {ps : List (JsString × α)} {k : JsString} {v : α}
    (h : lookupProp ps k = some v) : (k, v) ∈ ps := by
  induction ps with
  | nil => simp [lookupProp] at h
  | cons p ps ih =>
    obtain ⟨k', v'⟩ := p
    simp only [lookupProp] at h
    split at h
    · rename_i hk
      simp only [Option.some.injEq] at h
      simp [hk, h]
    · exact List.mem_cons_of_mem _ (ih h)

theorem lookupProp_isSome {α : Type} {ps : List (JsString × α)} {k : JsString}
    (h : k ∈ ps.map Prod.fst) : ∃ v, lookupProp ps k = some v := by
  induction ps with
  | nil => simp at h
  | cons p ps ih =>
    obtain ⟨k', v'⟩ := p
    simp only [lookupProp]
    split
    · exact ⟨v', rfl⟩
    · rename_i hk
      simp only [List.map_cons, List.mem_cons] at h
      rcases h with h | h
      · exact absurd h.symm hk
      · exact ih h

/-- The source's reading of the object case: the keys are sorted, and the value under each
key `k` is `canonicalize(obj[k])`. -/
theorem canonicalize_obj (H : Host) (ps : List (JsString × JsVal)) :
    canonicalize H (.obj ps) = some ((123 : CodeUnit) ::
      (joinComma ((sortStrings (ps.map Prod.fst)).map (fun k =>
        plusStr (quoteJSONString k ++ [58])
          (canonicalize H ((lookupProp ps k).getD .undefined)))) ++ [125])) := by
  simp only [canonicalize, Option.some.injEq, List.cons.injEq, true_and,
    List.append_cancel_right_eq]
  congr 1
  apply List.map_congr_left
  intro k hk
  rw [lookupProp_canonicalizeProps]
  obtain ⟨v, hv⟩ := lookupProp_isSome (mem_sortStrings.mp hk)
  simp [hv]

/-- C2: two values with the same keys and recursively equal values, built with different
key insertion orders at any nesting depth, have the same canonical string. -/
theorem canonicalize_key_order_independent (H : Host) (a b : JsVal)
    (h : SameUpToKeyOrder a b) : canonicalize H a = canonicalize H b := by
  induction h with
  | refl v => rfl
  | arr xs ys hlen _ ih =>
    have : canonicalizeList H xs = canonicalizeList H ys := by
      rw [canonicalizeList_eq_map, canonicalizeList_eq_map]
      apply List.ext_get (by simpa using hlen)
      intro i h1 h2
      simp only [List.length_map] at h1 h2
      simpa using ih i h1 h2
    simp only [canonicalize, this]
  | obj ps qs hp hq hkeys _ ih =>
    have hperm : (ps.map Prod.fst).Perm (qs.map Prod.fst) :=
      (List.perm_ext_iff_of_nodup hp hq).mpr hkeys
    rw [canonicalize_obj, canonicalize_obj, sortStrings_eq_of_perm hperm]
    simp only [Option.some.injEq, List.cons.injEq, true_and, List.append_cancel_right_eq]
    congr 1
    apply List.map_congr_left
    intro k hk
    have hkq : k ∈ qs.map Prod.fst := mem_sortStrings.mp hk
    obtain ⟨v, hv⟩ := lookupProp_isSome ((hkeys k).mpr hkq)
    obtain ⟨w, hw⟩ := lookupProp_isSome hkq
    rw [hv, hw]
    simp only [Option.getD_some]
    rw [ih k v w (lookupProp_mem hv) (lookupProp_mem hw)]

theorem sameUpToKeyOrder_swap (k1 k2 : JsString) (v1 v2 w1 w2 : JsVal) (hk : k1 ≠ k2)
    (h1 : SameUpToKeyOrder v1 w1) (h2 : SameUpToKeyOrder v2 w2) :
    SameUpToKeyOrder (.obj [(k1, v1), (k2, v2)]) (.obj [(k2, w2), (k1, w1)]) := by
  apply SameUpToKeyOrder.obj
  · simp [hk]
  · simp [Ne.symm hk]
  · intro k; simp [or_comm]
  · intro k v w hv hw
    simp only [List.mem_cons, Prod.mk.injEq, List.mem_singleton, List.not_mem_nil, or_false] at hv hw
    rcases hv with ⟨rfl, rfl⟩ | ⟨rfl, rfl⟩ <;> rcases hw with ⟨h, rfl⟩ | ⟨h, rfl⟩
    · exact absurd h hk
    · exact h1
    · exact h2
    · exact absurd h.symm hk

/-- C2, instance: a nested object and the same object with the keys of both levels inserted
in reverse order. -/
theorem canonicalize_key_order_independent_witness :
    SameUpToKeyOrder
      (.obj [(utf16 "a", .num (.fin false 1 0)),
        (utf16 "b", .obj [(utf16 "x", .str (utf16 "u")), (utf16 "y", .null)])])
      (.obj [(utf16 "b", .obj [(utf16 "y", .null), (utf16 "x", .str (utf16 "u"))]),
        (utf16 "a", .num (.fin false 1 0))]) ∧
    canonicalize exampleHost
      (.obj [(utf16 "a", .num (.fin false 1 0)),
        (utf16 "b", .obj [(utf16 "x", .str (utf16 "u")), (utf16 "y", .null)])]) =
    canonicalize exampleHost
      (.obj [(utf16 "b", .obj [(utf16 "y", .null), (utf16 "x", .str (utf16 "u"))]),
        (utf16 "a", .num (.fin false 1 0))]) :=
  ⟨sameUpToKeyOrder_swap _ _ _ _ _ _ (by decide) (.refl _)
      (sameUpToKeyOrder_swap _ _ _ _ _ _ (by decide) (.refl _) (.refl _)),
   canonicalize_key_order_independent _ _ _
    (sameUpToKeyOrder_swap _ _ _ _ _ _ (by decide) (.refl _)
      (sameUpToKeyOrder_swap _ _ _ _ _ _ (by decide) (.refl _) (.refl _)))⟩

/-! ### Trimming and normalisation -/

theorem rdropWhile_append_rtakeWhile (p : CodeUnit → Bool) (u : JsString) :
    u.rdropWhile p ++ u.rtakeWhile p = u := by
  rw [List.rdropWhile, List.rtakeWhile, ← List.reverse_append, List.takeWhile_append_dropWhile,
    List.reverse_reverse]

theorem trim_isTrimOf (t : JsString) : IsTrimOf t (trim t) := by
  have hpre : trim t ++ (t.dropWhile isWhiteSpace).rtakeWhile isWhiteSpace =
      t.dropWhile isWhiteSpace := rdropWhile_append_rtakeWhile _ _
  refine ⟨t.takeWhile isWhiteSpace, (t.dropWhile isWhiteSpace).rtakeWhile isWhiteSpace,
    ?_, ?_, ?_, ?_, ?_⟩
  · rw [List.append_assoc, hpre, List.takeWhile_append_dropWhile]
  · intro c hc
    exact (List.mem_takeWhile_imp hc)
  · intro c hc
    exact List.mem_rtakeWhile_imp hc
  · intro c hc
    have hh : (t.dropWhile isWhiteSpace).head? = some c := by
      rw [← hpre]
      cases h : trim t with
      | nil => rw [h] at hc; simp at hc
      | cons a rest => rw [h] at hc; simpa using hc
    have := List.head?_dropWhile_not isWhiteSpace t
    rw [hh] at this
    simpa using this
  · intro c hc
    have hne : (t.dropWhile isWhiteSpace).rdropWhile isWhiteSpace ≠ [] := by
      intro h
      have : trim t = [] := h
      rw [this] at hc; simp at hc
    have h1 := List.rdropWhile_last_not isWhiteSpace (t.dropWhile isWhiteSpace) hne
    have h2 : (trim t).getLast? =
        some (((t.dropWhile isWhiteSpace).rdropWhile isWhiteSpace).getLast hne) :=
      List.getLast?_eq_getLast _ hne
    rw [hc] at h2
    simp only [Option.some.injEq] at h2
    rw [h2]
    simpa using h1

theorem dropWhile_eq_self_of_head {p : CodeUnit → Bool} {s : JsString}
    (h : ∀ c, s.head? = some c → p c = false) : s.dropWhile p = s := by
  cases s with
  | nil => rfl
  | cons a s => simp [List.dropWhile, h a rfl]

theorem isTrimOf_unique {t s : JsString} (h : IsTrimOf t s) : s = trim t := by
  obtain ⟨l, r, rfl, hl, hr, hh, hlast⟩ := h
  have hrev : ∀ c ∈ r.reverse, isWhiteSpace c = true := fun c hc => hr c (List.mem_reverse.mp hc)
  by_cases hs : s = []
  · subst hs
    have : (l ++ [] ++ r).dropWhile isWhiteSpace = [] := by
      rw [List.dropWhile_eq_nil_iff]
      intro x hx
      simp only [List.append_nil, List.mem_append] at hx
      rcases hx with hx | hx
      · exact hl x hx
      · exact hr x hx
    unfold trim trimStart trimEnd
    rw [this]
    rfl
  · have h1 : (l ++ s ++ r).dropWhile isWhiteSpace = s ++ r := by
      rw [List.append_assoc, List.dropWhile_append_of_pos hl]
      apply dropWhile_eq_self_of_head
      intro c hc
      apply hh
      cases s with
      | nil => exact absurd rfl hs
      | cons a s' => simpa using hc
    have h2 : (s ++ r).reverse.dropWhile isWhiteSpace = s.reverse := by
      rw [List.reverse_append, List.dropWhile_append_of_pos hrev]
      apply dropWhile_eq_self_of_head
      intro c hc
      apply hlast
      rw [List.getLast?_eq_head?_reverse]
      exact hc
    unfold trim trimStart trimEnd
    rw [h1, h2, List.reverse_reverse]

theorem trim_trim (t : JsString) : trim (trim t) = trim t := by
  have h := trim_isTrimOf t
  obtain ⟨l, r, -, -, -, hh, hlast⟩ := h
  exact (isTrimOf_unique ⟨[], [], by simp, by simp, by simp, hh, hlast⟩).symm

theorem bind_eq_ok {ε α β : Type} {x : Except ε α} {f : α → Except ε β} {b : β} :
    (x >>= f) = .ok b ↔ ∃ a, x = .ok a ∧ f a = .ok b := by
  cases x <;> simp [bind, Except.bind]

theorem map_eq_ok {ε α β : Type} {x : Except ε α} {f : α → β} {b : β} :
    Except.map f x = .ok b ↔ ∃ a, x = .ok a ∧ f a = b := by
  cases x <;> simp [Except.map]

theorem S_eq_ok_iff (H : Host) (v : JsVal) (s : JsString) :
    S H v = .ok s ↔ ScalarField H v s := by
  unfold S ScalarField
  rw [map_eq_ok]
  constructor
  · rintro ⟨t, ht, rfl⟩
    split at ht
    · left
      simp only [Except.ok.injEq] at ht
      subst ht
      exact ⟨Or.inl rfl, rfl⟩
    · left
      simp only [Except.ok.injEq] at ht
      subst ht
      exact ⟨Or.inr rfl, rfl⟩
    · rename_i h1 h2
      right
      exact ⟨fun h => h1 h, fun h => h2 h, t, ht, trim_isTrimOf t⟩
  · rintro (⟨hv | hv, rfl⟩ | ⟨h1, h2, t, ht, hts⟩)
    · subst hv; exact ⟨[], rfl, rfl⟩
    · subst hv; exact ⟨[], rfl, rfl⟩
    · refine ⟨t, ?_, (isTrimOf_unique hts).symm⟩
      split
      · exact absurd rfl h1
      · exact absurd rfl h2
      · exact ht

theorem mapString_eq_ok_iff (H : Host) (xs : List JsVal) (ys : List JsVal) :
    mapString H xs = .ok ys ↔
      ∃ ss : List JsString, ys = ss.map JsVal.str ∧
        List.Forall₂ (fun x s => toStr H x = .ok s) xs ss := by
  induction xs generalizing ys with
  | nil =>
    simp only [mapString, Except.ok.injEq, List.forall₂_nil_left_iff]
    constructor
    · rintro rfl; exact ⟨[], rfl, rfl⟩
    · rintro ⟨ss, rfl, rfl⟩; rfl
  | cons x xs ih =>
    simp only [mapString, bind_eq_ok, pure, Except.pure, Except.ok.injEq]
    constructor
    · rintro ⟨s, hs, r, hr, rfl⟩
      obtain ⟨ss, rfl, hss⟩ := (ih r).mp hr
      exact ⟨s :: ss, rfl, List.Forall₂.cons hs hss⟩
    · rintro ⟨ss, rfl, hss⟩
      cases hss with
      | cons hs hrest =>
        exact ⟨_, hs, _, (ih _).mpr ⟨_, rfl, hrest⟩, rfl⟩

theorem strSeq_eq_ok_iff (H : Host) (v w : JsVal) :
    strSeq H v = .ok w ↔ ∃ ss : List JsString, w = .arr (ss.map JsVal.str) ∧ SeqField H v ss := by
  unfold strSeq SeqField
  split
  · rename_i xs
    rw [map_eq_ok]
    constructor
    · rintro ⟨ys, hys, rfl⟩
      obtain ⟨ss, rfl, hss⟩ := (mapString_eq_ok_iff H xs ys).mp hys
      exact ⟨ss, rfl, Or.inr ⟨xs, rfl, hss⟩⟩
    · rintro ⟨ss, rfl, (⟨h, -⟩ | ⟨xs', hx, hss⟩)⟩
      · exact absurd rfl (h xs)
      · simp only [JsVal.arr.injEq] at hx
        subst hx
        exact ⟨_, (mapString_eq_ok_iff H xs _).mpr ⟨ss, rfl, hss⟩, rfl⟩
  · rename_i hv
    constructor
    · intro h
      simp only [Except.ok.injEq] at h
      subst h
      exact ⟨[], rfl, Or.inl ⟨fun xs hx => hv xs hx, rfl⟩⟩
    · rintro ⟨ss, rfl, (⟨-, rfl⟩ | ⟨xs', hx, -⟩)⟩
      · rfl
      · exact absurd hx (hv xs')

theorem getProp_obj (ps : List (JsString × JsVal)) (k : JsString) :
    getProp (.obj ps) k = .ok (candidateValue ps k) := rfl

/-- The successful runs of `normalizeMetadata` on a mapping, field by field. -/
theorem normalizeMetadata_eq_ok_iff (H : Host) (ps : List (JsString × JsVal)) (r : JsVal) :
    normalizeMetadata H (.obj ps) = .ok r ↔
    ∃ R : MetadataRecord, r = R.toJs ∧
      ScalarField H (candidateValue ps (utf16 "title")) R.title ∧
      ScalarField H (candidateValue ps (utf16 "summary")) R.summary ∧
      ScalarField H (candidateValue ps (utf16 "doc_type")) R.doc_type ∧
      ScalarField H (candidateValue ps (utf16 "date_iso")) R.date_iso ∧
      SeqField H (candidateValue ps (utf16 "parties")) R.parties ∧
      SeqField H (candidateValue ps (utf16 "tags")) R.tags ∧
      ScalarField H (candidateValue ps (utf16 "model")) R.model ∧
      ScalarField H (candidateValue ps (utf16 "model_hash")) R.model_hash ∧
      ScalarField H (candidateValue ps (utf16 "prompt_hash")) R.prompt_hash ∧
      ScalarField H (candidateValue ps (utf16 "agent_version")) R.agent_version ∧
      ScalarField H (candidateValue ps (utf16 "extract_confidence")) R.extract_confidence ∧
      ScalarField H (candidateValue ps (utf16 "pdf_text_sha256")) R.pdf_text_sha256 ∧
      ScalarField H (candidateValue ps (utf16 "pages_processed")) R.pages_processed := by
  simp only [normalizeMetadata, getProp_obj, bind_eq_ok, pure, Except.pure, Except.ok.injEq,
    exists_eq_left', S_eq_ok_iff, strSeq_eq_ok_iff]
  constructor
  · rintro ⟨s1, e1, s2, e2, s3, e3, s4, e4, _, ⟨p, rfl, e5⟩, _, ⟨t, rfl, e6⟩, s7, e7, s8, e8,
      s9, e9, s10, e10, s11, e11, s12, e12, s13, e13, rfl⟩
    exact ⟨⟨s1, s2, s3, s4, p, t, s7, s8, s9, s10, s11, s12, s13⟩, rfl,
      e1, e2, e3, e4, e5, e6, e7, e8, e9, e10, e11, e12, e13⟩
  · rintro ⟨R, rfl, e1, e2, e3, e4, e5, e6, e7, e8, e9, e10, e11, e12, e13⟩
    exact ⟨_, e1, _, e2, _, e3, _, e4, _, ⟨_, rfl, e5⟩, _, ⟨_, rfl, e6⟩, _, e7, _, e8,
      _, e9, _, e10, _, e11, _, e12, _, e13, rfl⟩

/-- C6: on a candidate mapping, `normalizeMetadata` returns exactly the record in which every
scalar field is the empty string when the key is absent or its value `null` or `undefined`,
and otherwise the string coercion of the value with leading and trailing whitespace
removed, and in which `parties` and `tags` are empty when the value is not an array and
otherwise hold the string coercions of its elements, same length and order. It returns
nothing else, and it returns that record whenever the coercions the description names are
defined. -/
theorem normalizeMetadata_fields (H : Host) (ps : List (JsString × JsVal)) (r : JsVal) :
    normalizeMetadata H (.obj ps) = .ok r ↔
    ∃ R : MetadataRecord, r = R.toJs ∧
      ScalarField H (candidateValue ps (utf16 "title")) R.title ∧
      ScalarField H (candidateValue ps (utf16 "summary")) R.summary ∧
      ScalarField H (candidateValue ps (utf16 "doc_type")) R.doc_type ∧
      ScalarField H (candidateValue ps (utf16 "date_iso")) R.date_iso ∧
      SeqField H (candidateValue ps (utf16 "parties")) R.parties ∧
      SeqField H (candidateValue ps (utf16 "tags")) R.tags ∧
      ScalarField H (candidateValue ps (utf16 "model")) R.model ∧
      ScalarField H (candidateValue ps (utf16 "model_hash")) R.model_hash ∧
      ScalarField H (candidateValue ps (utf16 "prompt_hash")) R.prompt_hash ∧
      ScalarField H (candidateValue ps (utf16 "agent_version")) R.agent_version ∧
      ScalarField H (candidateValue ps (utf16 "extract_confidence")) R.extract_confidence ∧
      ScalarField H (candidateValue ps (utf16 "pdf_text_sha256")) R.pdf_text_sha256 ∧
      ScalarField H (candidateValue ps (utf16 "pages_processed")) R.pages_processed :=
  normalizeMetadata_eq_ok_iff H ps r

theorem S_ok_trimmed {H : Host} {v : JsVal} {s : JsString} (h : S H v = .ok s) : trim s = s := by
  unfold S at h
  obtain ⟨t, -, rfl⟩ := map_eq_ok.mp h
  exact trim_trim t

theorem scalarField_str (H : Host) (s : JsString) (h : trim s = s) :
    ScalarField H (.str s) s := by
  refine Or.inr ⟨by simp, by simp, s, rfl, ?_⟩
  have := trim_isTrimOf s
  rwa [h] at this

theorem seqField_arr (H : Host) (ss : List JsString) :
    SeqField H (.arr (ss.map JsVal.str)) ss := by
  refine Or.inr ⟨_, rfl, ?_⟩
  induction ss with
  | nil => exact List.Forall₂.nil
  | cons s ss ih => exact List.Forall₂.cons rfl ih

/-- A successful run of `normalizeMetadata`, on any input, returns a record whose scalar
fields are trimmed. -/
theorem normalizeMetadata_ok_record (H : Host) (c r : JsVal)
    (h : normalizeMetadata H c = .ok r) :
    ∃ R : MetadataRecord, r = R.toJs ∧ trim R.title = R.title ∧ trim R.summary = R.summary ∧
      trim R.doc_type = R.doc_type ∧ trim R.date_iso = R.date_iso ∧ trim R.model = R.model ∧
      trim R.model_hash = R.model_hash ∧ trim R.prompt_hash = R.prompt_hash ∧
      trim R.agent_version = R.agent_version ∧
      trim R.extract_confidence = R.extract_confidence ∧
      trim R.pdf_text_sha256 = R.pdf_text_sha256 ∧
      trim R.pages_processed = R.pages_processed := by
  simp only [normalizeMetadata, bind_eq_ok, pure, Except.pure, Except.ok.injEq,
    strSeq_eq_ok_iff] at h
  obtain ⟨v1, -, s1, e1, v2, -, s2, e2, v3, -, s3, e3, v4, -, s4, e4, v5, -, _, ⟨p, rfl, -⟩,
    v6, -, _, ⟨t, rfl, -⟩, v7, -, s7, e7, v8, -, s8, e8, v9, -, s9, e9, v10, -, s10, e10,
    v11, -, s11, e11, v12, -, s12, e12, v13, -, s13, e13, rfl⟩ := h
  exact ⟨⟨s1, s2, s3, s4, p, t, s7, s8, s9, s10, s11, s12, s13⟩, rfl, S_ok_trimmed e1,
    S_ok_trimmed e2, S_ok_trimmed e3, S_ok_trimmed e4, S_ok_trimmed e7, S_ok_trimmed e8,
    S_ok_trimmed e9, S_ok_trimmed e10, S_ok_trimmed e11, S_ok_trimmed e12, S_ok_trimmed e13⟩

theorem normalizeMetadata_ok_fix (H : Host) (c r : JsVal)
    (h : normalizeMetadata H c = .ok r) : normalizeMetadata H r = .ok r := by
  obtain ⟨R, rfl, t1, t2, t3, t4, t7, t8, t9, t10, t11, t12, t13⟩ :=
    normalizeMetadata_ok_record H c r h
  exact (normalizeMetadata_eq_ok_iff H _ _).mpr ⟨R, rfl, scalarField_str H _ t1,
    scalarField_str H _ t2, scalarField_str H _ t3, scalarField_str H _ t4,
    seqField_arr H _, seqField_arr H _, scalarField_str H _ t7, scalarField_str H _ t8,
    scalarField_str H _ t9, scalarField_str H _ t10, scalarField_str H _ t11,
    scalarField_str H _ t12, scalarField_str H _ t13⟩

theorem metaOutcome_fix (H : Host) (c : JsVal) (o : MetaOutcome)
    (h : metaOutcome H c = .ok o) : metaOutcome H o.metadata = .ok o := by
  simp only [metaOutcome, bind_eq_ok, pure, Except.pure, Except.ok.injEq] at h
  obtain ⟨r, hr, hash, hh, rfl⟩ := h
  simp only [metaOutcome, normalizeMetadata_ok_fix H c r hr, hh, bind, Except.bind, pure,
    Except.pure]

/-- C4: normalising a normalised record changes nothing (also when the first normalisation
raises), so `/verify/meta`, given the metadata record `/analyze` emitted, computes the same
record, canonical string and `metaHash` as `/analyze` did. The record is taken as emitted:
the JSON transport between the two requests is outside the model. -/
theorem reverification_recomputes_identifier (H : Host) (c : JsVal) (env : Env)
    (nowIso text : JsString) (pagesProcessed : JsNum) (gen : Except JsError JsVal) :
    (normalizeMetadata H c >>= normalizeMetadata H) = normalizeMetadata H c ∧
    (analyzeMeta H env nowIso text pagesProcessed gen >>= fun o => verifyMeta H o.metadata) =
      analyzeMeta H env nowIso text pagesProcessed gen := by
  constructor
  · cases h : normalizeMetadata H c with
    | error e => rfl
    | ok r => exact normalizeMetadata_ok_fix H c r h
  · cases h : analyzeMeta H env nowIso text pagesProcessed gen with
    | error e => rfl
    | ok o =>
      simp only [analyzeMeta, bind_eq_ok] at h
      obtain ⟨base, -, hm⟩ := h
      exact metaOutcome_fix H _ o hm

set_option maxRecDepth 100000 in
/-- A run of the metadata path of `/analyze` on the stub: the canonical string it hashes. -/
theorem analyzeMeta_on_stub :
    (analyzeMeta exampleHost exampleEnv (utf16 "2024-01-01T08:00:00.000Z") (utf16 " hello ")
        (.fin false 3 0) (.error .other)).toOption.map (fun o => o.canonical) =
      some (utf16 ("\x7b\"agent_version\":\"v1\",\"date_iso\":\"2024-01-01\"," ++
        "\"doc_type\":\"document\",\"extract_confidence\":\"0.500\"," ++
        "\"model\":\"gpt-4o-mini\",\"model_hash\":\"0x\",\"pages_processed\":\"3\"," ++
        "\"parties\":[],\"pdf_text_sha256\":\"0x\",\"prompt_hash\":\"0x\"," ++
        "\"summary\":\"hello\",\"tags\":[],\"title\":\"Untitled\"\x7d")) := by
  decide

/-- C5, failing input: on the candidate mapping whose `title` is an object with an own
property `toString`, `normalizeMetadata` raises a `TypeError` and returns no record. -/
theorem normalizeMetadata_raises_on_shadowed_toString :
    normalizeMetadata exampleHost
      (.obj [(utf16 "title", .obj [(utf16 "toString", .num (.fin false 1 0))])]) =
      .error .typeError := rfl

mutual
theorem toStr_ok_of_stringable (H : Host) : ∀ v : JsVal, stringable v = true →
    ∃ s, toStr H v = .ok s
  | .undefined, _ => ⟨_, rfl⟩
  | .null, _ => ⟨_, rfl⟩
  | .bool true, _ => ⟨_, rfl⟩
  | .bool false, _ => ⟨_, rfl⟩
  | .num _, _ => ⟨_, rfl⟩
  | .str _, _ => ⟨_, rfl⟩
  | .arr xs, h => by
    obtain ⟨ss, hss⟩ := elemStrs_ok_of_stringable H xs (by simpa [stringable] using h)
    exact ⟨joinComma ss, by simp [toStr, hss, Except.map]⟩
  | .obj ps, h => by
    simp only [stringable, Bool.not_eq_true'] at h
    exact ⟨utf16 "[object Object]", by simp [toStr, h]⟩
theorem elemStrs_ok_of_stringable (H : Host) : ∀ xs : List JsVal, stringableList xs = true →
    ∃ ss, elemStrs H xs = .ok ss
  | [], _ => ⟨[], rfl⟩
  | x :: xs, h => by
    simp only [stringableList, Bool.and_eq_true] at h
    obtain ⟨s, hs⟩ := toStr_ok_of_stringable H x h.1
    obtain ⟨ss, hss⟩ := elemStrs_ok_of_stringable H xs h.2
    cases x <;> simp_all [elemStrs, bind, Except.bind, pure, Except.pure]
end

theorem scalarField_of_stringable (H : Host) (v : JsVal) (h : stringable v = true) :
    ∃ s, ScalarField H v s := by
  by_cases h1 : v = .undefined
  · exact ⟨[], Or.inl ⟨Or.inl h1, rfl⟩⟩
  · by_cases h2 : v = .null
    · exact ⟨[], Or.inl ⟨Or.inr h2, rfl⟩⟩
    · obtain ⟨t, ht⟩ := toStr_ok_of_stringable H v h
      exact ⟨trim t, Or.inr ⟨h1, h2, t, ht, trim_isTrimOf t⟩⟩

theorem forall₂_toStr_of_stringableList (H : Host) : ∀ xs : List JsVal,
    stringableList xs = true → ∃ ss, List.Forall₂ (fun x s => toStr H x = .ok s) xs ss
  | [], _ => ⟨[], List.Forall₂.nil⟩
  | x :: xs, h => by
    simp only [stringableList, Bool.and_eq_true] at h
    obtain ⟨s, hs⟩ := toStr_ok_of_stringable H x h.1
    obtain ⟨ss, hss⟩ := forall₂_toStr_of_stringableList H xs h.2
    exact ⟨s :: ss, List.Forall₂.cons hs hss⟩

theorem seqField_of_stringable (H : Host) (v : JsVal)
    (h : elementsStringable v = true) : ∃ ss, SeqField H v ss := by
  cases v with
  | arr xs =>
    obtain ⟨ss, hss⟩ := forall₂_toStr_of_stringableList H xs h
    exact ⟨ss, Or.inr ⟨xs, rfl, hss⟩⟩
  | _ => exact ⟨[], Or.inl ⟨fun xs hx => JsVal.noConfusion hx, rfl⟩⟩

/-- On a coercible candidate `normalizeMetadata` returns a record. -/
theorem normalizeMetadata_returns_of_coercible (H : Host) (ps : List (JsString × JsVal))
    (h : coercible ps = true) :
    ∃ R : MetadataRecord, normalizeMetadata H (.obj ps) = .ok R.toJs := by
  simp only [coercible, scalarKeys, List.all_cons, List.all_nil, Bool.and_true,
    Bool.and_eq_true] at h
  obtain ⟨⟨⟨h1, h2, h3, h4, h7, h8, h9, h10, h11, h12, h13⟩, h5⟩, h6⟩ := h
  obtain ⟨s1, e1⟩ := scalarField_of_stringable H _ h1
  obtain ⟨s2, e2⟩ := scalarField_of_stringable H _ h2
  obtain ⟨s3, e3⟩ := scalarField_of_stringable H _ h3
  obtain ⟨s4, e4⟩ := scalarField_of_stringable H _ h4
  obtain ⟨s5, e5⟩ := seqField_of_stringable H _ h5
  obtain ⟨s6, e6⟩ := seqField_of_stringable H _ h6
  obtain ⟨s7, e7⟩ := scalarField_of_stringable H _ h7
  obtain ⟨s8, e8⟩ := scalarField_of_stringable H _ h8
  obtain ⟨s9, e9⟩ := scalarField_of_stringable H _ h9
  obtain ⟨s10, e10⟩ := scalarField_of_stringable H _ h10
  obtain ⟨s11, e11⟩ := scalarField_of_stringable H _ h11
  obtain ⟨s12, e12⟩ := scalarField_of_stringable H _ h12
  obtain ⟨s13, e13⟩ := scalarField_of_stringable H _ h13
  exact ⟨⟨s1, s2, s3, s4, s5, s6, s7, s8, s9, s10, s11, s12, s13⟩,
    (normalizeMetadata_eq_ok_iff H ps _).mpr
      ⟨_, rfl, e1, e2, e3, e4, e5, e6, e7, e8, e9, e10, e11, e12, e13⟩⟩

theorem stringableList_of_elemStrs_ok (H : Host) (xs : List JsVal)
    (ih : ∀ x ∈ xs, ∀ s, toStr H x = .ok s → stringable x = true) :
    ∀ ss : List JsString, elemStrs H xs = .ok ss → stringableList xs = true := by
  induction xs with
  | nil => intro ss _; rfl
  | cons x xs ihx =>
    intro ss h
    have hsplit : ∃ s r, (x = .undefined ∨ x = .null ∨ toStr H x = .ok s) ∧
        elemStrs H xs = .ok r := by
      cases x <;> simp only [elemStrs, bind_eq_ok, pure, Except.pure, Except.ok.injEq] at h <;>
        obtain ⟨s, hs, r, hr, -⟩ := h <;> exact ⟨s, r, by simp [hs], hr⟩
    obtain ⟨s, r, hs, hr⟩ := hsplit
    have hx : stringable x = true := by
      rcases hs with rfl | rfl | hs
      · rfl
      · rfl
      · exact ih _ (List.mem_cons_self _ _) s hs
    have hxs := ihx (fun y hy => ih y (List.mem_cons_of_mem _ hy)) r hr
    simp only [stringableList, hx, hxs, Bool.and_self]

theorem stringable_of_toStr_ok (H : Host) (v : JsVal) (s : JsString) (h : toStr H v = .ok s) :
    stringable v = true := by
  match v with
  | .undefined => rfl
  | .null => rfl
  | .bool _ => rfl
  | .num _ => rfl
  | .str _ => rfl
  | .arr xs =>
    simp only [toStr] at h
    obtain ⟨ss, hss, -⟩ := map_eq_ok.mp h
    have := stringableList_of_elemStrs_ok H xs
      (fun x _ t ht => stringable_of_toStr_ok H x t ht) ss hss
    simpa [stringable] using this
  | .obj ps =>
    simp only [toStr] at h
    split at h
    · exact Except.noConfusion h
    · rename_i hown
      simpa [stringable] using hown
termination_by sizeOf v
decreasing_by
  simp_wf
  rename_i hx
  have := List.sizeOf_lt_of_mem hx
  omega

theorem stringable_of_scalarField (H : Host) (v : JsVal) (s : JsString)
    (h : ScalarField H v s) : stringable v = true := by
  rcases h with ⟨hv | hv, -⟩ | ⟨-, -, t, ht, -⟩
  · subst hv; rfl
  · subst hv; rfl
  · exact stringable_of_toStr_ok H v t ht

theorem stringableList_of_forall₂ (H : Host) : ∀ (xs : List JsVal) (ss : List JsString),
    List.Forall₂ (fun x s => toStr H x = .ok s) xs ss → stringableList xs = true
  | [], _, _ => rfl
  | x :: xs, ss, h => by
    cases h with
    | cons hs hrest =>
      have h1 := stringable_of_toStr_ok H x _ hs
      have h2 := stringableList_of_forall₂ H xs _ hrest
      simp only [stringableList, h1, h2, Bool.and_self]

theorem stringable_of_seqField (H : Host) (v : JsVal) (ss : List JsString)
    (h : SeqField H v ss) : elementsStringable v = true := by
  rcases h with ⟨hv, -⟩ | ⟨xs, rfl, hss⟩
  · cases v with
    | arr xs => exact absurd rfl (hv xs)
    | _ => rfl
  · exact stringableList_of_forall₂ H xs ss hss

/-- The candidates on which `normalizeMetadata` returns are exactly the coercible ones. -/
theorem normalizeMetadata_returns_iff_coercible (H : Host) (ps : List (JsString × JsVal)) :
    (∃ r, normalizeMetadata H (.obj ps) = .ok r) ↔ coercible ps = true := by
  constructor
  · rintro ⟨r, hr⟩
    obtain ⟨R, -, e1, e2, e3, e4, e5, e6, e7, e8, e9, e10, e11, e12, e13⟩ :=
      (normalizeMetadata_eq_ok_iff H ps r).mp hr
    simp only [coercible, scalarKeys, List.all_cons, List.all_nil, Bool.and_true,
      Bool.and_eq_true]
    exact ⟨⟨⟨stringable_of_scalarField H _ _ e1, stringable_of_scalarField H _ _ e2,
      stringable_of_scalarField H _ _ e3, stringable_of_scalarField H _ _ e4,
      stringable_of_scalarField H _ _ e7, stringable_of_scalarField H _ _ e8,
      stringable_of_scalarField H _ _ e9, stringable_of_scalarField H _ _ e10,
      stringable_of_scalarField H _ _ e11, stringable_of_scalarField H _ _ e12,
      stringable_of_scalarField H _ _ e13⟩, stringable_of_seqField H _ _ e5⟩,
      stringable_of_seqField H _ _ e6⟩
  · intro h
    obtain ⟨R, hR⟩ := normalizeMetadata_returns_of_coercible H ps h
    exact ⟨_, hR⟩

/-- A candidate with missing keys, a number, a `null`, a scalar under `parties` and mixed
elements under `tags` is normalised to a record. -/
theorem normalizeMetadata_returns_on_malformed :
    coercible [(utf16 "title", .num (.fin false 5 0)), (utf16 "summary", .null),
      (utf16 "parties", .str (utf16 "Acme")),
      (utf16 "tags", .arr [.bool true, .null, .obj [(utf16 "a", .null)]])] = true ∧
    ∃ R : MetadataRecord, normalizeMetadata exampleHost
      (.obj [(utf16 "title", .num (.fin false 5 0)), (utf16 "summary", .null),
        (utf16 "parties", .str (utf16 "Acme")),
        (utf16 "tags", .arr [.bool true, .null, .obj [(utf16 "a", .null)]])]) = .ok R.toJs :=
  ⟨by decide, normalizeMetadata_returns_of_coercible exampleHost _ (by decide)⟩

/-- C3: two candidate mappings that agree on the values of the thirteen schema keys, whatever
their key order and their other keys, have the same normalisation and the same canonical
string. -/
theorem normalizeMetadata_ignores_order_and_extras (H : Host) (c1 c2 : List (JsString × JsVal))
    (h : ∀ k ∈ schemaKeys, candidateValue c1 k = candidateValue c2 k) :
    normalizeMetadata H (.obj c1) = normalizeMetadata H (.obj c2) ∧
    (normalizeMetadata H (.obj c1)).map (canonicalize H) =
      (normalizeMetadata H (.obj c2)).map (canonicalize H) := by
  have e : normalizeMetadata H (.obj c1) = normalizeMetadata H (.obj c2) := by
    simp only [normalizeMetadata, getProp_obj]
    rw [h _ (by decide), h _ (by decide), h _ (by decide), h _ (by decide), h _ (by decide),
      h _ (by decide), h _ (by decide), h _ (by decide), h _ (by decide), h _ (by decide),
      h _ (by decide), h _ (by decide), h _ (by decide)]
  exact ⟨e, by rw [e]⟩

/-- C3, instance: a candidate with an extra key and the same candidate reordered. -/
theorem normalizeMetadata_ignores_order_and_extras_witness :
    (∀ k ∈ schemaKeys,
      candidateValue [(utf16 "title", .str (utf16 "Lease")), (utf16 "note", .bool true),
          (utf16 "parties", .arr [.str (utf16 "A"), .str (utf16 "B")])] k =
        candidateValue [(utf16 "parties", .arr [.str (utf16 "A"), .str (utf16 "B")]),
          (utf16 "title", .str (utf16 "Lease"))] k) ∧
    normalizeMetadata exampleHost
        (.obj [(utf16 "title", .str (utf16 "Lease")), (utf16 "note", .bool true),
          (utf16 "parties", .arr [.str (utf16 "A"), .str (utf16 "B")])]) =
      normalizeMetadata exampleHost
        (.obj [(utf16 "parties", .arr [.str (utf16 "A"), .str (utf16 "B")]),
          (utf16 "title", .str (utf16 "Lease"))]) ∧
    (normalizeMetadata exampleHost
        (.obj [(utf16 "title", .str (utf16 "Lease")), (utf16 "note", .bool true),
          (utf16 "parties", .arr [.str (utf16 "A"), .str (utf16 "B")])])).map
        (canonicalize exampleHost) =
      (normalizeMetadata exampleHost
        (.obj [(utf16 "parties", .arr [.str (utf16 "A"), .str (utf16 "B")]),
          (utf16 "title", .str (utf16 "Lease"))])).map (canonicalize exampleHost) :=
  ⟨by intro k hk; fin_cases hk <;> rfl,
    normalizeMetadata_ignores_order_and_extras exampleHost _ _
      (by intro k hk; fin_cases hk <;> rfl)⟩

/-! ### Stamping -/

theorem decDigitsAux_lt (fuel n : Nat) (acc : JsString) (hf : 0 < fuel) (hn : n < 10) :
    decDigitsAux fuel n acc = Fin.ofNat (48 + n) :: acc := by
  cases fuel with
  | zero => omega
  | succ f =>
    have h0 : n / 10 = 0 := by omega
    have h1 : n % 10 = n := by omega
    simp only [decDigitsAux, h0, h1, if_true]

theorem decDigitsAux_ge (fuel n : Nat) (acc : JsString) (hf : 0 < fuel) (hn : 10 ≤ n) :
    decDigitsAux fuel n acc = decDigitsAux (fuel - 1) (n / 10) (Fin.ofNat (48 + n % 10) :: acc) := by
  cases fuel with
  | zero => omega
  | succ f =>
    have h0 : ¬ n / 10 = 0 := by omega
    simp only [decDigitsAux, h0, if_false, Nat.add_sub_cancel]

/-- The decimal digits of a number below ten thousand, padded with zeros to four digits. -/
theorem natToDec_padded (n : Nat) (h : n < 10000) :
    List.replicate (3 + 1 - (natToDec n).length) (48 : CodeUnit) ++ natToDec n =
      [Fin.ofNat (48 + n / 1000), Fin.ofNat (48 + n / 100 % 10), Fin.ofNat (48 + n / 10 % 10),
        Fin.ofNat (48 + n % 10)] := by
  unfold natToDec
  by_cases h1 : n < 10
  · rw [decDigitsAux_lt _ _ _ (by omega) h1]
    have a1 : n / 1000 = 0 := by omega
    have a2 : n / 100 % 10 = 0 := by omega
    have a3 : n / 10 % 10 = 0 := by omega
    have a4 : n % 10 = n := by omega
    rw [a1, a2, a3, a4]
    rfl
  · rw [decDigitsAux_ge _ _ _ (by omega) (by omega)]
    by_cases h2 : n < 100
    · rw [decDigitsAux_lt _ _ _ (by omega) (by omega)]
      have a1 : n / 1000 = 0 := by omega
      have a2 : n / 100 % 10 = 0 := by omega
      have a3 : n / 10 % 10 = n / 10 := by omega
      rw [a1, a2, a3]
      rfl
    · rw [decDigitsAux_ge _ _ _ (by omega) (by omega)]
      by_cases h3 : n < 1000
      · rw [decDigitsAux_lt _ _ _ (by omega) (by omega)]
        have a1 : n / 1000 = 0 := by omega
        have a2 : n / 100 % 10 = n / 10 / 10 := by omega
        rw [a1, a2]
        rfl
      · rw [decDigitsAux_ge _ _ _ (by omega) (by omega),
          decDigitsAux_lt _ _ _ (by omega) (by omega)]
        have a1 : n / 1000 = n / 10 / 10 / 10 := by omega
        have a2 : n / 100 % 10 = n / 10 / 10 % 10 := by omega
        rw [a1, a2]
        rfl

theorem roundScaled_unit (m : Nat) (e : Int)
    (h : (match e with
        | .ofNat k => decide (m * 2 ^ k ≤ 1)
        | .negSucc k => decide (m ≤ 2 ^ (k + 1))) = true) :
    roundScaled m e 3 ≤ 1000 ∧ geTenPow21 m e = false := by
  cases e with
  | ofNat k =>
    simp only [decide_eq_true_eq] at h
    simp only [roundScaled, geTenPow21, decide_eq_false_iff_not, not_le]
    constructor
    · calc m * 2 ^ k * 10 ^ 3 ≤ 1 * 10 ^ 3 := Nat.mul_le_mul_right _ h
        _ = 1000 := by norm_num
    · exact lt_of_le_of_lt h (by norm_num)
  | negSucc k =>
    simp only [decide_eq_true_eq] at h
    simp only [roundScaled, geTenPow21, decide_eq_false_iff_not, not_le]
    have hp : 0 < 2 ^ (k + 1) := Nat.pow_pos (by norm_num)
    generalize 2 ^ (k + 1) = P at h hp ⊢
    constructor
    · have : (2 * m * 10 ^ 3 + P) / (2 * P) < 1001 := by
        rw [Nat.div_lt_iff_lt_mul (by omega)]
        norm_num
        omega
      omega
    · calc m ≤ P := h
        _ < 10 ^ 21 * P := by
          have : 1 * P < 10 ^ 21 * P := Nat.mul_lt_mul_of_pos_right (by norm_num) hp
          simpa using this

/-- On a finite number between zero and one, `toFixed(3)` gives a confidence string. -/
theorem toFixed_unit (H : Host) (x : JsNum) (h : inUnitInterval x = true) :
    isConfidenceString (toFixed H x 3) = true := by
  cases x with
  | nan => simp [inUnitInterval] at h
  | inf neg => simp [inUnitInterval] at h
  | fin neg m e =>
    simp only [inUnitInterval, Bool.and_eq_true] at h
    obtain ⟨hsign, hle⟩ := h
    obtain ⟨hn, hg⟩ := roundScaled_unit m e hle
    have hs : (neg && decide (m ≠ 0)) = false := by
      cases neg <;> simp_all
    have hpad := natToDec_padded (roundScaled m e 3) (by omega)
    simp only [toFixed, hg, hs, hpad, Bool.false_eq_true, if_false, List.nil_append]
    generalize roundScaled m e 3 = n at hn
    have b1 : n / 1000 < 10 := by omega
    have b2 : n / 100 % 10 < 10 := by omega
    have b3 : n / 10 % 10 < 10 := by omega
    have b4 : n % 10 < 10 := by omega
    simp [isConfidenceString, Fin.ofNat, Nat.mod_eq_of_lt, b1, b2, b3, b4,
      show 48 + n / 1000 < 65536 by omega, show 48 + n / 100 % 10 < 65536 by omega,
      show 48 + n / 10 % 10 < 65536 by omega, show 48 + n % 10 < 65536 by omega]
    omega

theorem lookupProp_setProp_self (ps : List (JsString × JsVal)) (k : JsString) (v : JsVal) :
    lookupProp (setProp ps k v) k = some v := by
  induction ps with
  | nil => simp [setProp, lookupProp]
  | cons p ps ih =>
    obtain ⟨k', v'⟩ := p
    by_cases h : k' = k
    · simp [setProp, lookupProp, h]
    · simp [setProp, lookupProp, h, ih]

theorem lookupProp_setProp_ne (ps : List (JsString × JsVal)) (k k' : JsString) (v : JsVal)
    (hk : k ≠ k') : lookupProp (setProp ps k v) k' = lookupProp ps k' := by
  induction ps with
  | nil => simp [setProp, lookupProp, hk]
  | cons p ps ih =>
    obtain ⟨k0, v'⟩ := p
    by_cases h : k0 = k
    · subst h
      simp [setProp, lookupProp, hk]
    · by_cases h2 : k0 = k'
      · subst h2
        simp [setProp, lookupProp, h]
      · simp [setProp, lookupProp, h, h2, ih]

/-- The stamped candidate `summarizeText` returns when `base` is neither `null` nor
`undefined`. -/
theorem summarizeText_eq_ok (H : Host) (env : Env) (nowIso text : JsString)
    (gen : Except JsError JsVal) (c : JsVal)
    (hc : getProp (summarizeBase env nowIso text gen) (utf16 "extract_confidence") = .ok c) :
    summarizeText H env nowIso text gen = .ok (.obj
      (setProp (setProp (setProp (setProp (setProp
        (spreadProps (summarizeBase env nowIso text gen))
        (utf16 "extract_confidence") (.str (formatConfidence H c)))
        (utf16 "model") (.str env.MODEL))
        (utf16 "model_hash") (.str (sha256Hex H env.MODEL)))
        (utf16 "prompt_hash") (.str (sha256Hex H prompt)))
        (utf16 "agent_version") (.str env.AGENT_VERSION))) := by
  simp only [summarizeText, hc, bind, Except.bind, pure, Except.pure]

theorem getProp_ok_of_ne (b : JsVal) (k : JsString) (h1 : b ≠ .null) (h2 : b ≠ .undefined) :
    ∃ c, getProp b k = .ok c := by
  cases b with
  | undefined => exact absurd rfl h2
  | null => exact absurd rfl h1
  | bool b => exact ⟨_, rfl⟩
  | num n => exact ⟨_, rfl⟩
  | str s => exact ⟨_, rfl⟩
  | arr xs => exact ⟨_, rfl⟩
  | obj ps => exact ⟨_, rfl⟩

/-- The confidence `summarizeText` attaches. -/
theorem summarizeText_confidence (H : Host) (env : Env) (nowIso text : JsString)
    (gen : Except JsError JsVal) (c : JsVal)
    (hc : getProp (summarizeBase env nowIso text gen) (utf16 "extract_confidence") = .ok c) :
    ∃ r, summarizeText H env nowIso text gen = .ok r ∧
      getProp r (utf16 "extract_confidence") = .ok (.str (formatConfidence H c)) := by
  refine ⟨_, summarizeText_eq_ok H env nowIso text gen c hc, ?_⟩
  simp only [getProp]
  rw [lookupProp_setProp_ne _ _ _ _ (by decide), lookupProp_setProp_ne _ _ _ _ (by decide),
    lookupProp_setProp_ne _ _ _ _ (by decide), lookupProp_setProp_ne _ _ _ _ (by decide),
    lookupProp_setProp_self]
  rfl

theorem summarizeBase_stub (env : Env) (nowIso text : JsString) (gen : Except JsError JsVal)
    (h : usesStub env gen = true) : summarizeBase env nowIso text gen = stub nowIso text := by
  unfold usesStub at h
  unfold summarizeBase
  cases hu : (env.USE && env.client)
  · simp
  · rw [hu] at h
    cases gen with
    | error e => simp
    | ok v => simp at h

/-- C7, amended: when the generation collaborator is unavailable or errors, the candidate
is fixed by the input text, the configuration and the calendar date of the clock reading
(its first ten characters): two such runs on the same text and date return the same
candidate and the same metadata identifier. -/
theorem stub_candidate_fixed_by_text_and_date (H : Host) (env : Env)
    (text now1 now2 : JsString) (pagesProcessed : JsNum) (gen1 gen2 : Except JsError JsVal)
    (h1 : usesStub env gen1 = true) (h2 : usesStub env gen2 = true)
    (hd : now1.take 10 = now2.take 10) :
    summarizeText H env now1 text gen1 = summarizeText H env now2 text gen2 ∧
    analyzeMeta H env now1 text pagesProcessed gen1 =
      analyzeMeta H env now2 text pagesProcessed gen2 := by
  have e : summarizeText H env now1 text gen1 = summarizeText H env now2 text gen2 := by
    simp only [summarizeText, summarizeBase_stub _ _ _ _ h1, summarizeBase_stub _ _ _ _ h2,
      stub, hd]
  exact ⟨e, by simp only [analyzeMeta, e]⟩

/-- C7, instance: a morning run and an evening run of the same day, failing differently. -/
theorem stub_candidate_fixed_by_text_and_date_witness :
    usesStub exampleEnv (.error .other) = true ∧ usesStub exampleEnv (.error .parseError) = true ∧
    (utf16 "2024-01-01T08:00:00.000Z").take 10 = (utf16 "2024-01-01T23:59:59.999Z").take 10 ∧
    summarizeText exampleHost exampleEnv (utf16 "2024-01-01T08:00:00.000Z") (utf16 "hello")
        (.error .other) =
      summarizeText exampleHost exampleEnv (utf16 "2024-01-01T23:59:59.999Z") (utf16 "hello")
        (.error .parseError) ∧
    analyzeMeta exampleHost exampleEnv (utf16 "2024-01-01T08:00:00.000Z") (utf16 "hello")
        (.fin false 3 0) (.error .other) =
      analyzeMeta exampleHost exampleEnv (utf16 "2024-01-01T23:59:59.999Z") (utf16 "hello")
        (.fin false 3 0) (.error .parseError) :=
  ⟨rfl, rfl, by decide,
    stub_candidate_fixed_by_text_and_date exampleHost exampleEnv _ _ _ _ _ _ rfl rfl
      (by decide)⟩

/-- C7, counterexample: two failing runs on the same text, two seconds apart across
midnight, return different candidates, with different canonical strings. -/
theorem stub_candidate_depends_on_clock :
    summarizeText exampleHost exampleEnv (utf16 "2024-01-01T23:59:59.000Z") (utf16 "hello")
        (.error .other) ≠
      summarizeText exampleHost exampleEnv (utf16 "2024-01-02T00:00:01.000Z") (utf16 "hello")
        (.error .other) ∧
    (analyzeMeta exampleHost exampleEnv (utf16 "2024-01-01T23:59:59.000Z") (utf16 "hello")
        (.fin false 3 0) (.error .other)).toOption.map (fun o => o.canonical) ≠
      (analyzeMeta exampleHost exampleEnv (utf16 "2024-01-02T00:00:01.000Z") (utf16 "hello")
        (.fin false 3 0) (.error .other)).toOption.map (fun o => o.canonical) := by
  constructor
  · intro h
    have h2 := congrArg (fun r => r.toOption.bind (canonicalize exampleHost)) h
    revert h2
    decide
  · decide

/-- The confidence is `"0.500"` whenever `base.extract_confidence` can be read and is not a
number. -/
theorem confidence_default_when_not_number (H : Host) (env : Env) (nowIso text : JsString)
    (gen : Except JsError JsVal) (c : JsVal)
    (hc : getProp (summarizeBase env nowIso text gen) (utf16 "extract_confidence") = .ok c)
    (hn : ∀ x, c ≠ .num x) :
    ∃ r, summarizeText H env nowIso text gen = .ok r ∧
      getProp r (utf16 "extract_confidence") = .ok (.str (utf16 "0.500")) := by
  obtain ⟨r, hr, hconf⟩ := summarizeText_confidence H env nowIso text gen c hc
  refine ⟨r, hr, ?_⟩
  rw [hconf]
  cases c with
  | num x => exact absurd rfl (hn x)
  | _ => rfl

/-- The confidence is `"0.500"` whenever the stub is used. -/
theorem confidence_default_when_stub (H : Host) (env : Env) (nowIso text : JsString)
    (gen : Except JsError JsVal) (h : usesStub env gen = true) :
    ∃ r, summarizeText H env nowIso text gen = .ok r ∧
      getProp r (utf16 "extract_confidence") = .ok (.str (utf16 "0.500")) := by
  have hc : getProp (summarizeBase env nowIso text gen) (utf16 "extract_confidence") =
      .ok (.num (.fin false 1 (-1))) := by
    rw [summarizeBase_stub env nowIso text gen h]
    rfl
  obtain ⟨r, hr, hconf⟩ := summarizeText_confidence H env nowIso text gen _ hc
  exact ⟨r, hr, by rw [hconf]; rfl⟩

/-- The function returns whenever `base` is neither `null` nor `undefined`. -/
theorem summarizeText_returns (H : Host) (env : Env) (nowIso text : JsString)
    (gen : Except JsError JsVal) (h1 : summarizeBase env nowIso text gen ≠ .null)
    (h2 : summarizeBase env nowIso text gen ≠ .undefined) :
    ∃ r, summarizeText H env nowIso text gen = .ok r := by
  obtain ⟨c, hc⟩ := getProp_ok_of_ne _ (utf16 "extract_confidence") h1 h2
  exact ⟨_, summarizeText_eq_ok H env nowIso text gen c hc⟩

/-- The only outcome of the `try` block on which `summarizeText` raises is a response that
parses to `null` (`JSON.parse` never returns `undefined`). -/
theorem summarizeText_returns_unless_null (H : Host) (env : Env) (nowIso text : JsString)
    (gen : Except JsError JsVal) (h1 : gen ≠ .ok .null) (h2 : gen ≠ .ok .undefined) :
    ∃ r, summarizeText H env nowIso text gen = .ok r := by
  apply summarizeText_returns
  · unfold summarizeBase
    split
    · cases gen with
      | error e => simp [stub]
      | ok v =>
        intro hv
        have hv2 : v = .null := hv
        exact h1 (by rw [hv2])
    · simp [stub]
  · unfold summarizeBase
    split
    · cases gen with
      | error e => simp [stub]
      | ok v =>
        intro hv
        have hv2 : v = .undefined := hv
        exact h2 (by rw [hv2])
    · simp [stub]

/-- C8, amended: whenever `extract_confidence` can be read from the generation output (or
the stub), the attached value is `"0.500"` if it is not a number and its `toFixed(3)` if it
is; when it is not a number, or is a finite number between 0 and 1, that is a decimal string
with exactly three fractional digits between `0.000` and `1.000`. -/
theorem confidence_in_range_for_unit_interval (H : Host) (env : Env) (nowIso text : JsString)
    (gen : Except JsError JsVal) (c : JsVal)
    (hc : getProp (summarizeBase env nowIso text gen) (utf16 "extract_confidence") = .ok c)
    (hr : ∀ x, c = .num x → inUnitInterval x = true) :
    ∃ r s, summarizeText H env nowIso text gen = .ok r ∧
      getProp r (utf16 "extract_confidence") = .ok (.str s) ∧
      s = formatConfidence H c ∧ isConfidenceString s = true := by
  obtain ⟨r, hr1, hconf⟩ := summarizeText_confidence H env nowIso text gen c hc
  refine ⟨r, _, hr1, hconf, rfl, ?_⟩
  cases c with
  | num x => exact toFixed_unit H x (hr x rfl)
  | _ => exact (by decide : isConfidenceString (utf16 "0.500") = true)

/-- C8, instance: an upstream confidence of one quarter. -/
theorem confidence_in_range_for_unit_interval_witness :
    getProp (summarizeBase exampleEnv (utf16 "2024-01-01T00:00:00.000Z") (utf16 "hello")
        (.ok (.obj [(utf16 "extract_confidence", .num (.fin false 1 (-2)))])))
      (utf16 "extract_confidence") = .ok (.num (.fin false 1 (-2))) ∧
    ∃ r s, summarizeText exampleHost exampleEnv (utf16 "2024-01-01T00:00:00.000Z")
        (utf16 "hello") (.ok (.obj [(utf16 "extract_confidence", .num (.fin false 1 (-2)))])) =
          .ok r ∧
      getProp r (utf16 "extract_confidence") = .ok (.str s) ∧
      s = formatConfidence exampleHost (.num (.fin false 1 (-2))) ∧
      isConfidenceString s = true :=
  ⟨rfl, confidence_in_range_for_unit_interval exampleHost exampleEnv _ _ _ _ rfl
    (fun x hx => by
      simp only [JsVal.num.injEq] at hx
      subst hx
      decide)⟩

/-- C8, counterexample: an upstream confidence of 7 is attached as `"7.000"`, outside the
range; nothing clamps it. -/
theorem confidence_out_of_range_not_clamped :
    ∃ r, summarizeText exampleHost exampleEnv (utf16 "2024-01-01T00:00:00.000Z")
        (utf16 "hello") (.ok (.obj [(utf16 "extract_confidence", .num (.fin false 7 0))])) =
          .ok r ∧
      getProp r (utf16 "extract_confidence") = .ok (.str (utf16 "7.000")) ∧
      isConfidenceString (utf16 "7.000") = false :=
  ⟨_, rfl, rfl, by decide⟩

/-- A confidence that is a number but not finite, as `JSON.parse("1e400")` is, is attached
as `"Infinity"`, which has no fractional digits at all. -/
theorem confidence_of_infinity (H : Host) :
    formatConfidence H (.num (.inf false)) = utf16 "Infinity" := rfl

/-- C9, failing input: when the generation output is `null`, its confidence is missing, yet
no `extract_confidence` is set: reading it off the result of `summarizeText` raises. -/
theorem null_output_gets_no_default_confidence (H : Host) (nowIso text : JsString) :
    (summarizeText H exampleEnv nowIso text (.ok .null) >>=
      fun r => getProp r (utf16 "extract_confidence")) = .error .typeError := rfl

/-- C10, failing input: when the response content parses to `null`, `summarizeText` raises
a `TypeError` instead of returning a stamped candidate. -/
theorem summarizeText_raises_on_null_output (H : Host) (nowIso text : JsString) :
    summarizeText H exampleEnv nowIso text (.ok .null) = .error .typeError := rfl

/-- The four reproducibility fields of the stamped candidate, whenever
`base.extract_confidence` can be read: they come from the configuration, whatever `base`
holds under the same keys. -/
theorem summarizeText_reproducibility (H : Host) (env : Env) (nowIso text : JsString)
    (gen : Except JsError JsVal) (c : JsVal)
    (hc : getProp (summarizeBase env nowIso text gen) (utf16 "extract_confidence") = .ok c) :
    ∃ r, summarizeText H env nowIso text gen = .ok r ∧
      getProp r (utf16 "model") = .ok (.str env.MODEL) ∧
      getProp r (utf16 "model_hash") = .ok (.str (sha256Hex H env.MODEL)) ∧
      getProp r (utf16 "prompt_hash") = .ok (.str (sha256Hex H prompt)) ∧
      getProp r (utf16 "agent_version") = .ok (.str env.AGENT_VERSION) := by
  refine ⟨_, summarizeText_eq_ok H env nowIso text gen c hc, ?_, ?_, ?_, ?_⟩
  · simp only [getProp]
    rw [lookupProp_setProp_ne _ _ _ _ (by decide), lookupProp_setProp_ne _ _ _ _ (by decide),
      lookupProp_setProp_ne _ _ _ _ (by decide), lookupProp_setProp_self]
    rfl
  · simp only [getProp]
    rw [lookupProp_setProp_ne _ _ _ _ (by decide), lookupProp_setProp_ne _ _ _ _ (by decide),
      lookupProp_setProp_self]
    rfl
  · simp only [getProp]
    rw [lookupProp_setProp_ne _ _ _ _ (by decide), lookupProp_setProp_self]
    rfl
  · simp only [getProp]
    rw [lookupProp_setProp_self]
    rfl

set_option maxRecDepth 100000 in
/-- The generation output cannot override the reproducibility fields: an output that itself
carries `model`, `model_hash`, `prompt_hash` and `agent_version` is stamped with the
configured values. -/
theorem summarizeText_overrides_output :
    (summarizeText exampleHost exampleEnv (utf16 "2024-01-01T00:00:00.000Z") (utf16 "hello")
      (.ok (.obj [(utf16 "model", .str (utf16 "other")), (utf16 "model_hash", .num (.fin false 1 0)),
        (utf16 "prompt_hash", .null), (utf16 "agent_version", .str (utf16 "v9"))]))).toOption.bind
      (canonicalize exampleHost) =
    some (utf16 ("\x7b\"agent_version\":\"v1\",\"extract_confidence\":\"0.500\"," ++
      "\"model\":\"gpt-4o-mini\",\"model_hash\":\"0x\",\"prompt_hash\":\"0x\"\x7d")) := by
  decide

/-- C13, failing input: when the generation output is `null` there is no result to carry the
configured fields: reading `model` off the result of `summarizeText` raises. -/
theorem null_output_gets_no_reproducibility_fields (H : Host) (nowIso text : JsString) :
    (summarizeText H exampleEnv nowIso text (.ok .null) >>=
      fun r => getProp r (utf16 "model")) = .error .typeError := rfl

/-! ### Values outside the schema -/

/-- The function `canonicalize` returns a string on every value but `undefined`. -/
theorem canonicalize_isSome (H : Host) (v : JsVal) :
    (canonicalize H v).isSome = true ↔ v ≠ .undefined := by
  cases v with
  | undefined => simp [canonicalize, jsonStringify]
  | null => simp [canonicalize, jsonStringify]
  | bool b => cases b <;> simp [canonicalize, jsonStringify]
  | num n => simp [canonicalize, jsonStringify]
  | str s => simp [canonicalize, jsonStringify]
  | arr xs => simp [canonicalize]
  | obj ps => simp [canonicalize]

/-- C11, amended: `canonicalize` never fails. It returns a string on every value but
`undefined`, on which it returns `undefined`; a number gives its decimal text (`null` when
it is not finite) and a boolean `true` or `false`, also as a sequence element or a mapping
value; a nested `undefined` gives the empty string in a sequence and the text `undefined`
in a mapping. -/
theorem canonicalize_never_fails (H : Host) (v : JsVal) (n : JsNum) (b : Bool)
    (xs : List JsVal) (ps : List (JsString × JsVal)) :
    ((canonicalize H v).isSome = true ↔ v ≠ .undefined) ∧
    canonicalize H .undefined = none ∧
    canonicalize H (.num n) =
      some (if n.isFinite then numberToString H n else utf16 "null") ∧
    canonicalize H (.bool b) = some (if b then utf16 "true" else utf16 "false") ∧
    canonicalize H (.arr xs) = some ((91 : CodeUnit) ::
      (joinComma (xs.map (fun x => (canonicalize H x).getD [])) ++ [93])) ∧
    canonicalize H (.obj ps) = some ((123 : CodeUnit) ::
      (joinComma ((sortStrings (ps.map Prod.fst)).map (fun k =>
        quoteJSONString k ++ [58] ++
          (canonicalize H (candidateValue ps k)).getD (utf16 "undefined"))) ++ [125])) := by
  refine ⟨canonicalize_isSome H v, rfl, rfl, ?_, ?_, ?_⟩
  · cases b <;> rfl
  · simp only [canonicalize, canonicalizeList_eq_map, List.map_map]
    rfl
  · rw [canonicalize_obj]
    rfl

/-- C11, counterexample: a number, a boolean, and both nested in a sequence and in a mapping
next to `undefined`, are all given a canonical string; nothing fails. -/
theorem canonicalize_accepts_numbers_and_booleans :
    canonicalize exampleHost (.num (.fin false 1 0)) = some (utf16 "1") ∧
    canonicalize exampleHost (.bool true) = some (utf16 "true") ∧
    canonicalize exampleHost (.arr [.num (.fin false 1 0), .undefined, .bool false]) =
      some (utf16 "[1,,false]") ∧
    canonicalize exampleHost
      (.obj [(utf16 "n", .num (.fin false 2 0)), (utf16 "b", .bool true),
        (utf16 "u", .undefined)]) =
      some (utf16 "\x7b\"b\":true,\"n\":2,\"u\":undefined\x7d") := by
  decide

/-! ### The route `/analyze` -/

/-- C15, amended: whenever the extraction yields empty text, `/analyze` answers 422 with the
no-text error and nothing else in the body, so neither `docHash` nor `metaHash`; the
generation collaborator is not invoked and neither the text hash nor the metadata hash is
computed. The content hash of the file has been computed before the extraction; it is
discarded. -/
theorem analyze_no_text (H : Host) (R : RouteHost) (env : Env) (nowIso : JsString)
    (f : Upload) (pagesProcessed : JsNum) (gen : Except JsError JsVal) :
    (analyze H R env nowIso (some f) (.ok ([], pagesProcessed)) gen).1.status = 422 ∧
    (analyze H R env nowIso (some f) (.ok ([], pagesProcessed)) gen).1.body =
      .obj [(utf16 "error",
        .str (utf16 "No text found in PDF (OCR not enabled in this build)"))] ∧
    getProp (analyze H R env nowIso (some f) (.ok ([], pagesProcessed)) gen).1.body
      (utf16 "docHash") = .ok .undefined ∧
    getProp (analyze H R env nowIso (some f) (.ok ([], pagesProcessed)) gen).1.body
      (utf16 "metaHash") = .ok .undefined ∧
    (analyze H R env nowIso (some f) (.ok ([], pagesProcessed)) gen).2 =
      [.keccakHexFile, .extractPdfText] := by
  refine ⟨rfl, rfl, rfl, rfl, rfl⟩

/-- C15, counterexample: on a file whose extraction yields empty text, the content hash of
the file is among the calls made: a hash is computed. -/
theorem analyze_no_text_hashes_file :
    Call.keccakHexFile ∈
      (analyze exampleHost exampleRouteHost exampleEnv (utf16 "2024-01-01T00:00:00.000Z")
        (some ⟨[37, 80, 68, 70]⟩) (.ok ([], .fin false 0 0)) (.error .other)).2 := by
  decide

set_option maxRecDepth 100000 in
/-- A complete run of `/analyze` on the stub: status 200, with both identifiers. -/
theorem analyze_on_stub :
    (analyze exampleHost exampleRouteHost exampleEnv (utf16 "2024-01-01T00:00:00.000Z")
        (some ⟨[37, 80, 68, 70]⟩) (.ok (utf16 "hello", .fin false 1 0)) (.error .other)).1.status
      = 200 ∧
    (getProp (analyze exampleHost exampleRouteHost exampleEnv (utf16 "2024-01-01T00:00:00.000Z")
        (some ⟨[37, 80, 68, 70]⟩) (.ok (utf16 "hello", .fin false 1 0))
        (.error .other)).1.body (utf16 "docHash")).toOption.bind (canonicalize exampleHost) =
      some (utf16 "\"0x\"") ∧
    (analyze exampleHost exampleRouteHost exampleEnv (utf16 "2024-01-01T00:00:00.000Z")
        (some ⟨[37, 80, 68, 70]⟩) (.ok (utf16 "hello", .fin false 1 0)) (.error .other)).2 =
      [.keccakHexFile, .extractPdfText, .sha256HexStr, .summarizeText, .keccakHexCanonical] := by
  decide

/-! ### Key order and UTF-8 -/

theorem strLt_iff (a b : JsString) : strLt a b = true ↔ strLe a b = true ∧ a ≠ b := by
  induction a generalizing b with
  | nil =>
    cases b with
    | nil => simp [strLt, strLe]
    | cons d bs => simp [strLt, strLe]
  | cons c as ih =>
    cases b with
    | nil => simp [strLt, strLe]
    | cons d bs =>
      rcases lt_trichotomy c d with h | h | h
      · simp [strLt, strLe, h, ne_of_lt h]
      · subst h
        simp [strLt, strLe, ih]
      · simp [strLt, strLe, h, not_lt_of_lt h]

/-- The sorted keys of an object are in strict ascending code-unit order. -/
theorem sortStrings_pairwise_strLt (ks : List JsString) (hk : ks.Nodup) :
    (sortStrings ks).Pairwise (fun a b => strLt a b = true) := by
  haveI : IsTotal JsString (fun a b => strLe a b = true) := ⟨strLe_total⟩
  haveI : IsTrans JsString (fun a b => strLe a b = true) := ⟨strLe_trans⟩
  have hs : (sortStrings ks).Pairwise (fun a b => strLe a b = true) :=
    List.sorted_insertionSort _ ks
  have hn : (sortStrings ks).Nodup := (List.perm_insertionSort _ ks).nodup_iff.mpr hk
  exact (hs.and hn).imp (fun h => (strLt_iff _ _).mpr h)

theorem bytesLt_append_same (p x y : List (Fin 256)) :
    bytesLt (p ++ x) (p ++ y) = bytesLt x y := by
  induction p with
  | nil => rfl
  | cons a p ih => simp [bytesLt, ih]

theorem bytesLt_asymm : ∀ u v : List (Fin 256), bytesLt u v = true → bytesLt v u = false
  | _, [], h => by simp [bytesLt] at h
  | [], _ :: _, _ => by simp [bytesLt]
  | a :: as, b :: bs, h => by
    rcases lt_trichotomy a b with hab | hab | hab
    · simp [bytesLt, hab, not_lt_of_lt hab]
    · subst hab
      simp only [bytesLt, lt_self_iff_false, if_false] at h ⊢
      exact bytesLt_asymm as bs h
    · simp [bytesLt, hab, not_lt_of_lt hab] at h

/-- On the Basic Multilingual Plane the UTF-8 encoding preserves order, whatever follows. -/
theorem utf8CodePoint_lt (c d : Nat) (hd : d < 65536) (h : c < d) (x y : List (Fin 256)) :
    bytesLt (utf8CodePoint c ++ x) (utf8CodePoint d ++ y) = true := by
  unfold utf8CodePoint
  split_ifs <;>
    simp only [List.cons_append, List.nil_append, bytesLt, Fin.lt_def, Fin.ofNat] <;>
    split_ifs <;> first | rfl | omega

theorem utf8Encode_cons (c : CodeUnit) (rest : JsString)
    (hc : (isLeadSurrogate c || isTrailSurrogate c) = false) :
    utf8Encode (c :: rest) = utf8CodePoint c.val ++ utf8Encode rest := by
  simp only [Bool.or_eq_false_iff] at hc
  obtain ⟨hl, ht⟩ := hc
  cases rest with
  | nil => simp [utf8Encode, loneCodePoint, hl, ht]
  | cons d rest => simp [utf8Encode, loneCodePoint, hl, ht]

theorem utf8CodePoint_ne_nil (cp : Nat) : utf8CodePoint cp ≠ [] := by
  unfold utf8CodePoint
  split_ifs <;> simp

/-- On strings without surrogates the code-unit order is the byte-wise order of the UTF-8
encodings. -/
theorem strLt_eq_bytesLt : ∀ a b : JsString, surrogateFree a = true → surrogateFree b = true →
    strLt a b = bytesLt (utf8Encode a) (utf8Encode b)
  | [], [], _, _ => rfl
  | [], d :: bs, _, hb => by
    simp only [surrogateFree, List.all_cons, Bool.and_eq_true, Bool.not_eq_true'] at hb
    rw [utf8Encode_cons d bs hb.1]
    cases h : utf8CodePoint d.val with
    | nil => exact absurd h (utf8CodePoint_ne_nil _)
    | cons x xs => simp [strLt, utf8Encode, bytesLt]
  | c :: as, [], ha, _ => by
    simp only [surrogateFree, List.all_cons, Bool.and_eq_true, Bool.not_eq_true'] at ha
    rw [utf8Encode_cons c as ha.1]
    cases h : utf8CodePoint c.val with
    | nil => exact absurd h (utf8CodePoint_ne_nil _)
    | cons x xs => simp [strLt, utf8Encode, bytesLt]
  | c :: as, d :: bs, ha, hb => by
    simp only [surrogateFree, List.all_cons, Bool.and_eq_true, Bool.not_eq_true'] at ha hb
    rw [utf8Encode_cons c as ha.1, utf8Encode_cons d bs hb.1]
    rcases lt_trichotomy c d with h | h | h
    · rw [utf8CodePoint_lt c.val d.val d.isLt h]
      simp [strLt, h]
    · subst h
      rw [bytesLt_append_same]
      simp only [strLt, lt_self_iff_false, if_false]
      exact strLt_eq_bytesLt as bs (by simpa [surrogateFree] using ha.2)
        (by simpa [surrogateFree] using hb.2)
    · rw [bytesLt_asymm _ _ (utf8CodePoint_lt d.val c.val c.isLt h _ _)]
      simp [strLt, h, not_lt_of_lt h]

/-- C12, amended: for every mapping value (its keys are distinct), the keys in the output of
`canonicalize` are all its keys, in strict ascending lexicographic order of their UTF-16
code units, as `Array.prototype.sort` compares strings. That is the byte-wise order of
their UTF-8 encodings when no key contains a surrogate code unit, that is when every key is
made of characters of the Basic Multilingual Plane. -/
theorem canonicalize_keys_sorted_by_code_units (H : Host) (ps : List (JsString × JsVal))
    (hk : (ps.map Prod.fst).Nodup) :
    canonicalize H (.obj ps) = some ((123 : CodeUnit) ::
      (joinComma ((sortStrings (ps.map Prod.fst)).map (fun k =>
        quoteJSONString k ++ [58] ++
          (canonicalize H (candidateValue ps k)).getD (utf16 "undefined"))) ++ [125])) ∧
    (sortStrings (ps.map Prod.fst)).Perm (ps.map Prod.fst) ∧
    (sortStrings (ps.map Prod.fst)).Pairwise (fun a b => strLt a b = true) ∧
    ((∀ k ∈ ps.map Prod.fst, surrogateFree k = true) →
      (sortStrings (ps.map Prod.fst)).Pairwise
        (fun a b => bytesLt (utf8Encode a) (utf8Encode b) = true)) := by
  have hs := sortStrings_pairwise_strLt _ hk
  refine ⟨?_, List.perm_insertionSort _ _, hs, ?_⟩
  · rw [canonicalize_obj]
    rfl
  · intro hfree
    have hmem : (sortStrings (ps.map Prod.fst)).Pairwise
        (fun a b => surrogateFree a = true ∧ surrogateFree b = true) :=
      List.pairwise_of_forall_mem_list (fun a ha b hb =>
        ⟨hfree a (mem_sortStrings.mp ha), hfree b (mem_sortStrings.mp hb)⟩)
    exact (hs.and hmem).imp (fun h => by rw [← strLt_eq_bytesLt _ _ h.2.1 h.2.2]; exact h.1)

/-- C12, instance: two ASCII keys inserted in descending order. -/
theorem canonicalize_keys_sorted_by_code_units_witness :
    ([(utf16 "b", JsVal.null), (utf16 "a", JsVal.bool true)].map Prod.fst).Nodup ∧
    canonicalize exampleHost (.obj [(utf16 "b", .null), (utf16 "a", .bool true)]) =
      some (utf16 "\x7b\"a\":true,\"b\":null\x7d") ∧
    (sortStrings ([(utf16 "b", JsVal.null), (utf16 "a", JsVal.bool true)].map Prod.fst)).Pairwise
      (fun a b => strLt a b = true) :=
  ⟨by decide, by decide,
    (canonicalize_keys_sorted_by_code_units exampleHost
      [(utf16 "b", .null), (utf16 "a", .bool true)] (by decide)).2.2.1⟩

/-- C12, counterexample: for the keys U+E000 and U+1F600 (code units D83D DE00), the output
lists U+1F600 first, although the UTF-8 encoding of U+E000 (EE 80 80) is byte-wise smaller
than that of U+1F600 (F0 9F 98 80). -/
theorem canonicalize_keys_not_in_utf8_order :
    canonicalize exampleHost (.obj [([57344], .null), ([55357, 56832], .null)]) =
      some ([123, 34, 55357, 56832, 34, 58, 110, 117, 108, 108, 44,
        34, 57344, 34, 58, 110, 117, 108, 108, 125]) ∧
    utf8Encode [57344] = [238, 128, 128] ∧
    utf8Encode [55357, 56832] = [240, 159, 152, 128] ∧
    bytesLt (utf8Encode [57344]) (utf8Encode [55357, 56832]) = true := by
  decide

/-! ### The canonical string of a record -/

/-- The canonical form of a record is the text the specification gives it. -/
theorem canonicalize_toJs_text (H : Host) (R : MetadataRecord) :
    canonicalize H R.toJs = some (canonicalText R) := by
  have e0 : utf16 "\x7b\"agent_version\":" =
      (123 : CodeUnit) :: (quoteJSONString (utf16 "agent_version") ++ [58]) := by decide
  have e1 : utf16 ",\"date_iso\":" =
      (44 : CodeUnit) :: (quoteJSONString (utf16 "date_iso") ++ [58]) := by decide
  have e2 : utf16 ",\"doc_type\":" =
      (44 : CodeUnit) :: (quoteJSONString (utf16 "doc_type") ++ [58]) := by decide
  have e3 : utf16 ",\"extract_confidence\":" =
      (44 : CodeUnit) :: (quoteJSONString (utf16 "extract_confidence") ++ [58]) := by decide
  have e4 : utf16 ",\"model\":" =
      (44 : CodeUnit) :: (quoteJSONString (utf16 "model") ++ [58]) := by decide
  have e5 : utf16 ",\"model_hash\":" =
      (44 : CodeUnit) :: (quoteJSONString (utf16 "model_hash") ++ [58]) := by decide
  have e6 : utf16 ",\"pages_processed\":" =
      (44 : CodeUnit) :: (quoteJSONString (utf16 "pages_processed") ++ [58]) := by decide
  have e7 : utf16 ",\"parties\":" =
      (44 : CodeUnit) :: (quoteJSONString (utf16 "parties") ++ [58]) := by decide
  have e8 : utf16 ",\"pdf_text_sha256\":" =
      (44 : CodeUnit) :: (quoteJSONString (utf16 "pdf_text_sha256") ++ [58]) := by decide
  have e9 : utf16 ",\"prompt_hash\":" =
      (44 : CodeUnit) :: (quoteJSONString (utf16 "prompt_hash") ++ [58]) := by decide
  have e10 : utf16 ",\"summary\":" =
      (44 : CodeUnit) :: (quoteJSONString (utf16 "summary") ++ [58]) := by decide
  have e11 : utf16 ",\"tags\":" =
      (44 : CodeUnit) :: (quoteJSONString (utf16 "tags") ++ [58]) := by decide
  have e12 : utf16 ",\"title\":" =
      (44 : CodeUnit) :: (quoteJSONString (utf16 "title") ++ [58]) := by decide
  have e13 : utf16 "\x7d" = [(125 : CodeUnit)] := by decide
  rw [canonicalize_toJs]
  simp only [canonicalText, canonicalSeparators, canonicalValues, interleave, quotedSeq,
    e0, e1, e2, e3, e4, e5, e6, e7, e8, e9, e10, e11, e12, e13, joinComma, List.flatten,
    List.append_assoc, List.cons_append, List.nil_append, List.append_nil]

/-- On a coercible candidate `normalizeMetadata` returns a record, and the canonical form of
that record is the text the specification gives it. -/
theorem canonicalize_normalizeMetadata (H : Host) (ps : List (JsString × JsVal))
    (h : coercible ps = true) :
    ∃ R : MetadataRecord, normalizeMetadata H (.obj ps) = .ok R.toJs ∧
      canonicalize H R.toJs = some (canonicalText R) := by
  obtain ⟨r, hr⟩ := (normalizeMetadata_returns_iff_coercible H ps).mpr h
  obtain ⟨R, rfl, -⟩ := normalizeMetadata_ok_record H _ r hr
  exact ⟨R, hr, canonicalize_toJs_text H R⟩

set_option maxRecDepth 100000 in
/-- No text of the canonical string outside its string literals holds a whitespace code
unit. -/
theorem canonical_punctuation_no_whitespace :
    (∀ s ∈ canonicalSeparators, ∀ u ∈ s, isWhiteSpace u = false) ∧
    (∀ u ∈ quotedSeq [], isWhiteSpace u = false) ∧
    (∀ u ∈ joinComma [[], []], isWhiteSpace u = false) := by
  have h1 : (canonicalSeparators.all fun s => s.all fun u => !isWhiteSpace u) = true := by rfl
  have h2 : ((quotedSeq []).all fun u => !isWhiteSpace u) = true := by rfl
  have h3 : ((joinComma [[], []]).all fun u => !isWhiteSpace u) = true := by rfl
  simp only [List.all_eq_true, Bool.not_eq_true'] at h1 h2 h3
  exact ⟨h1, h2, h3⟩

set_option maxRecDepth 100000 in
/-- The canonical string of the candidate of example scenario 1. -/
theorem canonicalize_lease (H : Host) :
    (normalizeMetadata H (.obj leaseCandidate)).map (canonicalize H) =
      .ok (some (utf16 ("\x7b\"agent_version\":\"\",\"date_iso\":\"\",\"doc_type\":\"\"," ++
        "\"extract_confidence\":\"\",\"model\":\"\",\"model_hash\":\"\"," ++
        "\"pages_processed\":\"\",\"parties\":[\"A\",\"B\"],\"pdf_text_sha256\":\"\"," ++
        "\"prompt_hash\":\"\",\"summary\":\"\",\"tags\":[],\"title\":\"Lease\"\x7d"))) := by
  rfl

set_option maxRecDepth 100000 in
/-- The canonical string where it exists: for every candidate whose values can be coerced to
strings, `normalizeMetadata` returns a record `R` and `canonicalize` of it is exactly the opening brace, the thirteen
pairs `"key":value` in the order agent_version, date_iso, doc_type, extract_confidence,
model, model_hash, pages_processed, parties, pdf_text_sha256, prompt_hash, summary, tags,
title, comma-joined, and the closing brace, where each string of `R` is JSON-quoted and each
sequence is the bracketed comma-joined quoted elements; the text outside the string literals
holds no whitespace; and the candidate `{title: "Lease", parties: ["A", "B"], tags: []}`
gives the string that begins `{"agent_version":"",`, contains `"parties":["A","B"]` and
writes every omitted field as `""`. -/
theorem canonical_string_of_normalized_record (H : Host) (ps : List (JsString × JsVal))
    (h : coercible ps = true) :
    (∃ R : MetadataRecord, normalizeMetadata H (.obj ps) = .ok R.toJs ∧
      canonicalize H R.toJs = some (canonicalText R)) ∧
    ((∀ s ∈ canonicalSeparators, ∀ u ∈ s, isWhiteSpace u = false) ∧
      (∀ u ∈ quotedSeq [], isWhiteSpace u = false) ∧
      (∀ u ∈ joinComma [[], []], isWhiteSpace u = false)) ∧
    (normalizeMetadata H (.obj leaseCandidate)).map (canonicalize H) =
      .ok (some (utf16 ("\x7b\"agent_version\":\"\",\"date_iso\":\"\",\"doc_type\":\"\"," ++
        "\"extract_confidence\":\"\",\"model\":\"\",\"model_hash\":\"\"," ++
        "\"pages_processed\":\"\",\"parties\":[\"A\",\"B\"],\"pdf_text_sha256\":\"\"," ++
        "\"prompt_hash\":\"\",\"summary\":\"\",\"tags\":[],\"title\":\"Lease\"\x7d"))) :=
  ⟨canonicalize_normalizeMetadata H ps h, canonical_punctuation_no_whitespace,
    canonicalize_lease H⟩

set_option maxRecDepth 100000 in
/-- The canonical string at the candidate of example scenario 1. -/
theorem canonical_string_of_normalized_record_witness :
    coercible leaseCandidate = true ∧
    ((∃ R : MetadataRecord, normalizeMetadata exampleHost (.obj leaseCandidate) = .ok R.toJs ∧
      canonicalize exampleHost R.toJs = some (canonicalText R)) ∧
    ((∀ s ∈ canonicalSeparators, ∀ u ∈ s, isWhiteSpace u = false) ∧
      (∀ u ∈ quotedSeq [], isWhiteSpace u = false) ∧
      (∀ u ∈ joinComma [[], []], isWhiteSpace u = false)) ∧
    (normalizeMetadata exampleHost (.obj leaseCandidate)).map (canonicalize exampleHost) =
      .ok (some (utf16 ("\x7b\"agent_version\":\"\",\"date_iso\":\"\",\"doc_type\":\"\"," ++
        "\"extract_confidence\":\"\",\"model\":\"\",\"model_hash\":\"\"," ++
        "\"pages_processed\":\"\",\"parties\":[\"A\",\"B\"],\"pdf_text_sha256\":\"\"," ++
        "\"prompt_hash\":\"\",\"summary\":\"\",\"tags\":[],\"title\":\"Lease\"\x7d")))) :=
  ⟨by decide, canonical_string_of_normalized_record exampleHost leaseCandidate (by decide)⟩

/-- C14, failing input: on the candidate mapping whose `title` is an object with an own
property `toString`, `normalizeMetadata` raises a `TypeError`, so `canonicalize` is never
reached and the candidate has no canonical string. -/
theorem no_canonical_string_on_shadowed_toString (H : Host) :
    (normalizeMetadata H
      (.obj [(utf16 "title", .obj [(utf16 "toString", .num (.fin false 1 0))])])).map
      (canonicalize H) = .error .typeError := rfl

end SeiCore
